import Mathlib

/-!
# Verification of the Clearify text-humanization subsystem

Shallow embedding of `app/utils/humanizer.py` (classes `TextAnalyzer`,
`ModificationEngine`, `Humanizer`, `HumanizerEvaluator`) into Lean 4, together
with theorems settling the frozen claims about that module.

Embedding conventions, fixed once for the whole file:

* Text is modelled as `List Char` (wrapped in `String` at the interfaces).
  Character classes follow Python's `re` on ASCII text: `\w` is
  `[A-Za-z0-9_]`, case operations are ASCII case operations, and `\s` is the
  set of Python whitespace characters listed in `isPySpace`.
* Python float arithmetic on scores and probabilities is modelled with exact
  rationals (`ℚ`).  Every concrete value the claims touch (integers and
  halves) is exactly representable as a double, so the model agrees with the
  code on those values.
* Fallible Python code (expressions that can raise, e.g. division by zero)
  is modelled with `Except String`.
* `random.random()` is modelled by an explicit stream of rationals together
  with a cursor; `random.choice xs` consumes one draw `q` and picks the
  element at index `⌊q * xs.length⌋`.
* Each `re.sub` / `re.findall` over the module's (static) patterns is
  realized as a dedicated left-to-right scanner implementing the
  leftmost / greedy semantics of the concrete pattern; none of the patterns
  involved requires general backtracking (each `\s+` / `\w+` run is followed
  by a character that cannot belong to the run's class).
-/

set_option maxHeartbeats 1000000

namespace Clearify

/-! ## Character classes and elementary string utilities -/

/-- The characters Python's `re` module treats as `\s` on `str` patterns
(Unicode whitespace), which is also the set accepted by `str.strip()` /
`str.split()` with no arguments. -/
def pySpaceChars : List Char :=
  [' ', '\t', '\n', '\r', '\x0b', '\x0c',
   '\x1c', '\x1d', '\x1e', '\x1f', '\x85', '\xa0', '\u1680',
   '\u2000', '\u2001', '\u2002', '\u2003', '\u2004', '\u2005',
   '\u2006', '\u2007', '\u2008', '\u2009', '\u200a',
   '\u2028', '\u2029', '\u202f', '\u205f', '\u3000']

/-- Python `\s` / `str.strip()` whitespace test. -/
def isPySpace (c : Char) : Bool := pySpaceChars.contains c

/-- Python `\w` restricted to ASCII: letters, digits and underscore. -/
def isWordChar (c : Char) : Bool :=
  c.isAlpha || c.isDigit || c = '_'

/-- ASCII lowercasing, the effect of Python `str.lower()` on ASCII text. -/
def lowerC (c : Char) : Char := c.toLower

/-- ASCII uppercasing, the effect of Python `str.upper()` on ASCII text. -/
def upperC (c : Char) : Char := c.toUpper

def lowerL (l : List Char) : List Char := l.map lowerC

/-- Case-insensitive (ASCII) prefix test: does `pat` start `l`? -/
def isPrefixCI : List Char → List Char → Bool
  | [], _ => true
  | _ :: _, [] => false
  | p :: ps, c :: cs => (lowerC p = lowerC c) && isPrefixCI ps cs

/-- Case-sensitive prefix test. -/
def isPrefixL : List Char → List Char → Bool
  | [], _ => true
  | _ :: _, [] => false
  | p :: ps, c :: cs => (p = c) && isPrefixL ps cs

/-- A regex word boundary sits after the end of a match whose last character
is a word character iff the next character (if any) is a non-word character. -/
def endBoundary : List Char → Bool
  | [] => true
  | c :: _ => !isWordChar c

/-- `text.strip()` / trailing part of Python's behaviour: drop leading and
trailing Python whitespace. -/
def pyStripWs (l : List Char) : List Char :=
  (l.dropWhile isPySpace).reverse.dropWhile isPySpace |>.reverse

/-- `str.strip(chars)`: drop leading and trailing characters from `set`. -/
def pyStripSet (set : List Char) (l : List Char) : List Char :=
  (l.dropWhile (set.contains ·)).reverse.dropWhile (set.contains ·) |>.reverse

/-- Helper for `pySplit`: `acc` holds the (reversed) characters of the token
currently being read. -/
def pySplitAux : List Char → List Char → List (List Char)
  | acc, [] => if acc.isEmpty then [] else [acc.reverse]
  | acc, c :: rest =>
    if isPySpace c then
      if acc.isEmpty then pySplitAux [] rest
      else acc.reverse :: pySplitAux [] rest
    else pySplitAux (c :: acc) rest

/-- `text.split()` with no separator: maximal runs of non-whitespace,
whitespace runs dropped, no empty tokens. -/
def pySplit (l : List Char) : List (List Char) := pySplitAux [] l

/-- `' '.join`: interleave a single space between the pieces. -/
def joinSpace : List (List Char) → List Char
  | [] => []
  | [x] => x
  | x :: xs => x ++ ' ' :: joinSpace xs

/-- Helper for `countSub`: `skip` positions are still part of the last match
and are passed over without starting a new one. -/
def countSubAux (pat : List Char) : Nat → List Char → Nat
  | _, [] => 0
  | skip + 1, _ :: rest => countSubAux pat skip rest
  | 0, c :: rest =>
    if !pat.isEmpty && isPrefixL pat (c :: rest) then
      1 + countSubAux pat (pat.length - 1) rest
    else
      countSubAux pat 0 rest

/-- Count of non-overlapping occurrences of `pat` (Python `str.count`). -/
def countSub (pat : List Char) (l : List Char) : Nat := countSubAux pat 0 l

/-- Helper for `removeAll`: characters still belonging to a removed match are
dropped without being emitted. -/
def removeAllAux (pat : List Char) : Nat → List Char → List Char
  | _, [] => []
  | skip + 1, _ :: rest => removeAllAux pat skip rest
  | 0, c :: rest =>
    if !pat.isEmpty && isPrefixL pat (c :: rest) then
      removeAllAux pat (pat.length - 1) rest
    else
      c :: removeAllAux pat 0 rest

/-- Remove every non-overlapping occurrence of `pat`, left to right
(`text.replace(pat, '')`). -/
def removeAll (pat : List Char) (l : List Char) : List Char :=
  removeAllAux pat 0 l

/-! ## Generic scanner for counting regex matches

`countMatches m` walks the text once, left to right.  `m` receives the
remaining text and whether the previous character is a word character (for
`\b` look-arounds) and returns the length of the (unique) match starting
here, if any.  After a match the scanner resumes at the first position past
it, mirroring `re.findall`'s non-overlapping semantics. -/

def countMatches (m : List Char → Bool → Option Nat) :
    Nat → Bool → List Char → Nat
  | _, _, [] => 0
  | skip + 1, _, c :: rest => countMatches m skip (isWordChar c) rest
  | 0, prev, c :: rest =>
    match m (c :: rest) prev with
    | some (n + 1) => 1 + countMatches m n (isWordChar c) rest
    | _ => countMatches m 0 (isWordChar c) rest

/-- Matcher for `\b(w₁|w₂|…)\b` (case-insensitive): at a position preceded by
a non-word character, the first alternative that is a prefix of the text and
is followed by a non-word character (or the end). -/
def matchWordAlt (alts : List (List Char)) (l : List Char) (prev : Bool) :
    Option Nat :=
  if prev then none
  else alts.findSome? fun a =>
    if isPrefixCI a l && endBoundary (l.drop a.length) then some a.length
    else none

/-! ## `HumanizerEvaluator.evaluate_ai_detection_evasion`

Source: `humanizer.py`, lines 605-634.  Seven `(pattern, penalty)` pairs, all
counted with `re.IGNORECASE`; score starts at 100, adds `penalty * count`,
is clamped to `[0, 100]` and rounded to two decimals. -/

def litL (s : String) : List Char := s.data

/-- `\b(furthermore|moreover|additionally|consequently|subsequently)\b` -/
def matchFormalTransition (l : List Char) (prev : Bool) : Option Nat :=
  matchWordAlt
    [litL "furthermore", litL "moreover", litL "additionally",
     litL "consequently", litL "subsequently"] l prev

/-- `\bIt is important to note that\b` -/
def matchImportantNote (l : List Char) (prev : Bool) : Option Nat :=
  matchWordAlt [litL "it is important to note that"] l prev

/-- `\b(comprehensive|robust|leverage|utilize|facilitate)\b` -/
def matchAiVocab (l : List Char) (prev : Bool) : Option Nat :=
  matchWordAlt
    [litL "comprehensive", litL "robust", litL "leverage",
     litL "utilize", litL "facilitate"] l prev

/-- `\.\s+The\s+` (no word boundaries, greedy whitespace runs). -/
def matchDotThe (l : List Char) (_prev : Bool) : Option Nat :=
  match l with
  | '.' :: r =>
    let ws1 := r.takeWhile isPySpace
    let r1 := r.dropWhile isPySpace
    if ws1.isEmpty then none
    else if isPrefixCI (litL "the") r1 then
      let r2 := r1.drop 3
      let ws2 := r2.takeWhile isPySpace
      if ws2.isEmpty then none
      else some (1 + ws1.length + 3 + ws2.length)
    else none
  | _ => none

/-- `,\s+(making|being|term)\b` -/
def matchCommaBroken (l : List Char) (_prev : Bool) : Option Nat :=
  match l with
  | ',' :: r =>
    let ws1 := r.takeWhile isPySpace
    let r1 := r.dropWhile isPySpace
    if ws1.isEmpty then none
    else
      match matchWordAlt [litL "making", litL "being", litL "term"] r1 false with
      | some n => some (1 + ws1.length + n)
      | none => none
  | _ => none

/-- `\b(So|But|Also),\s+(So|But|Also)\b` -/
def matchDoubleConn (l : List Char) (prev : Bool) : Option Nat :=
  if prev then none
  else
    [litL "so", litL "but", litL "also"].findSome? fun a =>
      if isPrefixCI a l then
        match l.drop a.length with
        | ',' :: r =>
          let ws1 := r.takeWhile isPySpace
          let r1 := r.dropWhile isPySpace
          if ws1.isEmpty then none
          else
            match matchWordAlt [litL "so", litL "but", litL "also"] r1 false with
            | some n => some (a.length + 1 + ws1.length + n)
            | none => none
        | _ => none
      else none

/-- `The \w+ of` (case-insensitive, no word boundaries, greedy `\w+`). -/
def matchNominal (l : List Char) (_prev : Bool) : Option Nat :=
  if isPrefixCI (litL "the ") l then
    let r1 := l.drop 4
    let w := r1.takeWhile isWordChar
    let r2 := r1.dropWhile isWordChar
    if w.isEmpty then none
    else if isPrefixCI (litL " of") r2 then some (4 + w.length + 3)
    else none
  else none

/-- Number of `re.findall(pattern, text, re.IGNORECASE)` matches for one of
the evaluator's patterns, starting at the beginning of the text (no previous
character, so a leading `\b` holds). -/
def patCount (m : List Char → Bool → Option Nat) (l : List Char) : Nat :=
  countMatches m 0 false l

/-- Python `round` to the nearest integer with ties to even (banker's
rounding), on exact rationals. -/
def pyRoundEven (q : ℚ) : ℤ :=
  let f : ℤ := q.floor
  let r : ℚ := q - f
  if r < 1/2 then f
  else if 1/2 < r then f + 1
  else if f % 2 = 0 then f else f + 1

/-- Python `round(x, 2)` on exact rationals. -/
def round2 (q : ℚ) : ℚ := (pyRoundEven (q * 100) : ℚ) / 100

/-- The seven penalty terms of `evaluate_ai_detection_evasion`. -/
def evasionRaw (l : List Char) : ℚ :=
  100
    + (-4 : ℚ) * patCount matchFormalTransition l
    + (-5 : ℚ) * patCount matchImportantNote l
    + (-2 : ℚ) * patCount matchAiVocab l
    + (-1 : ℚ) * patCount matchDotThe l
    + (-3 : ℚ) * patCount matchCommaBroken l
    + (-4 : ℚ) * patCount matchDoubleConn l
    + (-1/2 : ℚ) * patCount matchNominal l

/-- `evasion_score` field of `evaluate_ai_detection_evasion`:
`round(max(0, min(100, score)), 2)`. -/
def evasionScore (s : String) : ℚ :=
  round2 (max 0 (min 100 (evasionRaw s.data)))

/-- Total penalty of the evaluator measured in half-points, so that it is a
natural number: `evasionRaw = 100 - penaltyHalf / 2`. -/
def penaltyHalf (l : List Char) : ℕ :=
  8 * patCount matchFormalTransition l
    + 10 * patCount matchImportantNote l
    + 4 * patCount matchAiVocab l
    + 2 * patCount matchDotThe l
    + 6 * patCount matchCommaBroken l
    + 8 * patCount matchDoubleConn l
    + patCount matchNominal l

/-! ## `TextAnalyzer`

Source: `humanizer.py`, lines 127-221. -/

/-- Result record of `TextAnalyzer.analyze` (the `TextAnalysis` dataclass,
lines 9-22).  Score fields are exact rationals, cf. the file header. -/
structure TextAnalysis where
  formality_score : ℚ
  technical_score : ℚ
  avg_sentence_length : ℚ
  vocabulary_complexity : ℚ
  target_tone : String
  paragraph_count : Nat
  sentence_count : Nat
  word_count : Nat
  unique_word_ratio : ℚ
  is_already_human : Bool
  existing_colloquial_count : Nat
  deriving Repr, DecidableEq

def formalIndicators : List (List Char) :=
  [litL "moreover", litL "furthermore", litL "consequently", litL "thus",
   litL "therefore", litL "nevertheless", litL "notwithstanding",
   litL "subsequently", litL "accordingly", litL "hence", litL "wherein",
   litL "whereby", litL "henceforth"]

def technicalIndicators : List (List Char) :=
  [litL "algorithm", litL "function", litL "parameter", litL "variable",
   litL "implementation", litL "methodology", litL "framework",
   litL "architecture", litL "protocol", litL "interface",
   litL "optimization", litL "configuration", litL "initialization",
   litL "instantiation"]

def casualIndicators : List (List Char) :=
  [litL "you know", litL "I mean", litL "like", litL "basically",
   litL "actually", litL "honestly", litL "really", litL "pretty",
   litL "quite", litL "just", litL "maybe", litL "kinda", litL "sorta"]

/-- The split position test of `_split_sentences` /
`_split_sentences_advanced`:
`(?<!\w\.\w.)(?<![A-Z][a-z]\.)(?<=\.|\?|\!)` evaluated just before a
whitespace character.  `prev` holds the characters before the current
position, most recent first. -/
def sentBoundaryOk (prev : List Char) : Bool :=
  match prev with
  | [] => false
  | p1 :: rest1 =>
    (p1 = '.' || p1 = '?' || p1 = '!') &&
    !(match rest1 with
      | p2 :: p3 :: p4 :: _ =>
        isWordChar p4 && p3 = '.' && isWordChar p2 && p1 ≠ '\n'
      | _ => false) &&
    !(match rest1 with
      | p2 :: p3 :: _ => p3.isUpper && p2.isLower && p1 = '.'
      | _ => false)

/-- `re.split(r'(?<!\w\.\w.)(?<![A-Z][a-z]\.)(?<=\.|\?|\!)\s', text)`:
each single whitespace character at an admissible boundary separates two
pieces and is dropped. -/
def splitSentRaw : List Char → List Char → List Char → List (List Char)
  | _prev, acc, [] => [acc.reverse]
  | prev, acc, c :: rest =>
    if isPySpace c && sentBoundaryOk prev then
      acc.reverse :: splitSentRaw (c :: prev) [] rest
    else
      splitSentRaw (c :: prev) (c :: acc) rest

/-- `TextAnalyzer._split_sentences` (lines 207-209): regex split, then
`[s.strip() for s in sentences if s.strip()]`. -/
def splitSentences (l : List Char) : List (List Char) :=
  ((splitSentRaw [] [] l).map pyStripWs).filter (fun s => !s.isEmpty)

/-- `re.split(r'…(?<=\.|\?|\!)\s+', text)`: like `splitSentRaw` but the
separator is a maximal whitespace run (`inSep` tracks whether we are still
inside the run that started the current separator). -/
def splitSentAdvRaw : Bool → List Char → List Char → List Char → List (List Char)
  | _, _prev, acc, [] => [acc.reverse]
  | inSep, prev, acc, c :: rest =>
    if inSep && isPySpace c then
      splitSentAdvRaw true (c :: prev) acc rest
    else if isPySpace c && sentBoundaryOk prev then
      acc.reverse :: splitSentAdvRaw true (c :: prev) [] rest
    else
      splitSentAdvRaw false (c :: prev) (c :: acc) rest

/-- `ModificationEngine._split_sentences_advanced` (lines 370-375): empty or
whitespace-only text yields `[]`; otherwise regex split on
`(?<!\w\.\w.)(?<![A-Z][a-z]\.)(?<=\.|\?|\!)\s+` followed by
`[s.strip() for s in sentences if s and s.strip()]`. -/
def splitSentencesAdvanced (l : List Char) : List (List Char) :=
  if (pyStripWs l).isEmpty then []
  else ((splitSentAdvRaw false [] [] l).map pyStripWs).filter (fun s => !s.isEmpty)

/-- Case-sensitive `re.search(r'\b(a₁|a₂|…)\b', text)` where every
alternative begins and ends with a word character. -/
def containsWordAlt (alts : List (List Char)) : Bool → List Char → Bool
  | _, [] => false
  | prev, c :: rest =>
    (!prev && alts.any fun a =>
      isPrefixL a (c :: rest) && endBoundary ((c :: rest).drop a.length))
    || containsWordAlt alts (isWordChar c) rest

/-- `TextAnalyzer._determine_tone` (lines 211-221). -/
def determineTone (formality technicality : ℚ) (casual_count : Nat) : String :=
  if formality > 7 then "formal"
  else if technicality > 6 then "technical"
  else if 5 < casual_count ∨ formality < 3 then "casual"
  else if formality > 5 ∧ technicality > 4 then "professional"
  else "neutral"

/-- `TextAnalyzer._is_already_human` (lines 194-205).  The five
`human_indicators_patterns` are, in order: `[!]{1,3}`, `[?]`, an emoji
range, `\b(I'm|I've|I'll|can't|won't|don't)\b` and `\b(my|our|we|us)\b`
(all case-sensitive `re.search`). -/
def isAlreadyHuman (l : List Char) (formality_score : ℚ) (casual_count : Nat) :
    Bool :=
  let patScore : Nat :=
    (if l.any (· = '!') then 1 else 0) +
    (if l.any (· = '?') then 1 else 0) +
    (if l.any (fun c => 0x1F600 ≤ c.val && c.val ≤ 0x1F64F) then 1 else 0) +
    (if containsWordAlt
        [litL "I'm", litL "I've", litL "I'll", litL "can't", litL "won't",
         litL "don't"] false l then 1 else 0) +
    (if containsWordAlt [litL "my", litL "our", litL "we", litL "us"] false l
     then 1 else 0)
  let score := patScore +
    (if formality_score < 4 then 1 else 0) +
    (if 3 ≤ casual_count then 1 else 0) +
    (if containsWordAlt [litL "I", litL "my", litL "our"] false l then 1 else 0)
  3 ≤ score

/-- The word-normalization `w.lower().strip('.,!?;:()[]{}')` applied to each
whitespace token (line 157; the `if w.strip()` filter never drops a token of
`text.split()`). -/
def cleanWord (w : List Char) : List Char :=
  pyStripSet (litL ".,!?;:()[]{}") (lowerL w)

/-- `TextAnalyzer.analyze` (lines 154-192).  The divisions guarded by
`if … > 0 else 0` in the source are embedded with the same guards; the
*unguarded* divisions by `sentence_count` in the `formality_score` and
`technical_score` lines raise `ZeroDivisionError` when the sentence list is
empty, which the embedding surfaces as `Except.error`. -/
def analyzeE (l : List Char) : Except String TextAnalysis :=
  let sentences := splitSentences l
  let words := pySplit l
  let words_clean := words.map cleanWord
  let word_count := words_clean.length
  let sentence_count := sentences.length
  let paragraph_count := countSub (litL "\n\n") l + 1
  let avg_sentence_length : ℚ :=
    if sentence_count > 0 then (word_count : ℚ) / sentence_count else 0
  let unique_words := words_clean.dedup.length
  let unique_word_ratio : ℚ :=
    if word_count > 0 then (unique_words : ℚ) / word_count else 0
  let complex_words := words_clean.filter (fun w => w.length > 12)
  let vocabulary_complexity : ℚ :=
    if word_count > 0 then (complex_words.length : ℚ) / word_count else 0
  let formal_count :=
    (words_clean.filter (fun w => formalIndicators.contains w)).length
  let casual_count :=
    (words_clean.filter (fun w => casualIndicators.contains w)).length
  if sentence_count = 0 then
    Except.error "ZeroDivisionError: division by zero"
  else
    let formality_score : ℚ :=
      min 10 (max 0 ((formal_count : ℚ) / sentence_count * 30 -
        (casual_count : ℚ) / sentence_count * 20))
    let technical_count :=
      (words_clean.filter (fun w => technicalIndicators.contains w)).length
    let technical_score : ℚ :=
      min 10 ((technical_count : ℚ) / sentence_count * 40 +
        vocabulary_complexity * 30)
    let target_tone := determineTone formality_score technical_score casual_count
    let is_already_human := isAlreadyHuman l formality_score casual_count
    let existing_colloquial :=
      (casualIndicators.filter
        (fun ind => containsWordAlt [ind] false (lowerL l))).length
    Except.ok {
      formality_score := formality_score
      technical_score := technical_score
      avg_sentence_length := avg_sentence_length
      vocabulary_complexity := vocabulary_complexity
      target_tone := target_tone
      paragraph_count := paragraph_count
      sentence_count := sentence_count
      word_count := word_count
      unique_word_ratio := unique_word_ratio
      is_already_human := is_already_human
      existing_colloquial_count := existing_colloquial }

/-- `TextAnalyzer.analyze` on a `String`. -/
def analyze (s : String) : Except String TextAnalysis := analyzeE s.data

/-! ## `ModificationEngine.reduce_the_repetition`

Source: `humanizer.py`, lines 278-300. -/

/-- Uppercase the first character (`modified[0].upper() + modified[1:]`). -/
def capFirst : List Char → List Char
  | [] => []
  | c :: cs => upperC c :: cs

/-- The loop body of `reduce_the_repetition`: `the_count` is the running
counter of consecutive sentences beginning with `"The "`.  On the third
consecutive one the leading `"The "` is stripped, the remainder (when
non-empty) is re-capitalized and the counter resets; note that when the
remainder is empty the source appends nothing and does *not* reset. -/
def reduceTheAux : Nat → List (List Char) → List (List Char)
  | _, [] => []
  | the_count, s :: rest =>
    if isPrefixL (litL "The ") s then
      if the_count + 1 > 2 then
        match s.drop 4 with
        | [] => reduceTheAux (the_count + 1) rest
        | m :: ms => (upperC m :: ms) :: reduceTheAux 0 rest
      else s :: reduceTheAux (the_count + 1) rest
    else s :: reduceTheAux 0 rest

/-- `ModificationEngine.reduce_the_repetition` (lines 278-300): split into
sentences with `_split_sentences_advanced`, run the counter loop, join the
kept sentences with single spaces. -/
def reduceTheRepetition (l : List Char) : List Char :=
  joinSpace (reduceTheAux 0 (splitSentencesAdvanced l))

/-- Modelled from the claim's words (for the refinement statement of C6):
within each run of consecutive sentences beginning with `"The "`, exactly
every third such sentence has its leading `"The "` stripped and its new
first letter capitalized; `run` is the number of consecutive `"The "`
sentences seen immediately before the current one. -/
def reduceTheSpec : Nat → List (List Char) → List (List Char)
  | _, [] => []
  | run, s :: rest =>
    if isPrefixL (litL "The ") s then
      (if (run + 1) % 3 = 0 then capFirst (s.drop 4) else s)
        :: reduceTheSpec (run + 1) rest
    else s :: reduceTheSpec 0 rest

/-! ## `ModificationEngine.replace_synonyms_contextual`

Source: `humanizer.py`, lines 223-368, with the synonym table of
`EnglishProcessor.get_synonyms` (lines 53-93). -/

/-- The `ModificationConfig` dataclass (lines 24-33). -/
structure ModificationConfig where
  uncertainty_probability : ℚ
  colloquial_probability : ℚ
  sentence_variation : ℚ
  personal_touches : ℚ
  synonym_replacement : ℚ
  structure_modification : ℚ
  max_modifications_per_sentence : ℕ
  deriving Repr, DecidableEq

/-- The ambient pseudo-random generator: an explicit stream of rationals in
`[0,1)` with a cursor.  `random.random()` returns the draw at the cursor and
advances it. -/
structure PyRandom where
  seq : ℕ → ℚ
  pos : ℕ

/-- `random.random()`. -/
def PyRandom.next (r : PyRandom) : ℚ × PyRandom :=
  (r.seq r.pos, ⟨r.seq, r.pos + 1⟩)

/-- `random.choice xs`, modelled as consuming one draw `q` and picking the
element at index `⌊q · |xs|⌋`. -/
def pyChoice {α : Type} (r : PyRandom) (l : List α) (dflt : α) : α × PyRandom :=
  let (q, r') := r.next
  (l.getD (Int.toNat (q * l.length).floor) dflt, r')

/-- `deque(maxlen := cap)` append: the oldest entries fall out on the left
when the capacity is exceeded.  The list holds oldest entries first. -/
def dequePush (cap : ℕ) (x : List Char) (l : List (List Char)) :
    List (List Char) :=
  let l' := l ++ [x]
  if l'.length > cap then l'.drop (l'.length - cap) else l'

/-- `list(deque)[-5:]`: the last five entries (or all of them). -/
def last5 (l : List (List Char)) : List (List Char) := l.drop (l.length - 5)

/-- `EnglishProcessor.get_synonyms` (lines 53-93), in source order. -/
def synonymsDict : List (List Char × List (List Char)) :=
  [(litL "analyze", [litL "examine", litL "look at", litL "study", litL "review"]),
   (litL "demonstrate", [litL "show", litL "display", litL "reveal", litL "exhibit"]),
   (litL "indicate", [litL "suggest", litL "show", litL "point to", litL "signal"]),
   (litL "establish", [litL "set up", litL "create", litL "build", litL "form"]),
   (litL "facilitate", [litL "simplify", litL "enable", litL "help", litL "support"]),
   (litL "implement", [litL "apply", litL "use", litL "carry out", litL "deploy"]),
   (litL "optimize", [litL "maximize", litL "improve", litL "enhance"]),
   (litL "utilize", [litL "use", litL "employ", litL "apply"]),
   (litL "comprehensive", [litL "rich", litL "extensive", litL "broad", litL "wide"]),
   (litL "significant", [litL "important", litL "major", litL "actual", litL "real"]),
   (litL "substantial", [litL "actual", litL "real", litL "considerable", litL "major"]),
   (litL "efficient", [litL "effective", litL "productive", litL "smooth"]),
   (litL "robust", [litL "strong", litL "solid", litL "powerful", litL "reliable"]),
   (litL "innovative", [litL "creative", litL "new", litL "fresh", litL "original"]),
   (litL "crucial", [litL "vital", litL "key", litL "essential", litL "important"]),
   (litL "adequate", [litL "sufficient", litL "enough", litL "suitable"]),
   (litL "numerous", [litL "various", litL "many", litL "multiple"]),
   (litL "methodology", [litL "method", litL "approach", litL "way"]),
   (litL "framework", [litL "structure", litL "system", litL "model"]),
   (litL "implementation", [litL "application", litL "use", litL "deployment"]),
   (litL "utilization", [litL "use", litL "usage", litL "application"]),
   (litL "paradigm", [litL "shift", litL "change", litL "model"]),
   (litL "infrastructure", [litL "system", litL "structure", litL "framework"]),
   (litL "datasets", [litL "data sets", litL "training sets"]),
   (litL "systems", [litL "machines", litL "solutions", litL "tools"]),
   (litL "subsequently", [litL "later", litL "then", litL "after that", litL "next"]),
   (litL "previously", [litL "before", litL "earlier", litL "prior"]),
   (litL "approximately", [litL "about", litL "around", litL "roughly"]),
   (litL "achieve", [litL "reach", litL "attain", litL "get to"]),
   (litL "require", [litL "need", litL "demand", litL "call for"]),
   (litL "enable", [litL "allow", litL "let", litL "permit"])]

/-- The candidate score of `_choose_best_synonym` (lines 346-368):
`(15 - len·0.5) + (10 if not recently used) + (10 - |index - middle|)`;
`recently` holds the engine's `recently_used` deque. -/
def synScore (recently : List (List Char)) (synonyms : List (List Char))
    (syn : List Char) : ℚ :=
  (15 - (syn.length : ℚ) * (1/2))
    + (if recently.contains syn then 0 else 10)
    + (10 - (((synonyms.findIdx (· == syn) : ℤ) -
        (synonyms.length / 2 : ℕ)).natAbs : ℚ))

/-- Stable insertion keeping earlier elements ahead on equal scores
(Python's `sorted(…, reverse=True)` is stable descending). -/
def insDesc (x : List Char × ℚ) :
    List (List Char × ℚ) → List (List Char × ℚ)
  | [] => [x]
  | y :: ys => if x.2 ≤ y.2 then y :: insDesc x ys else x :: y :: ys

/-- Stable descending sort by score (fold from the left so that earlier
candidates precede later ones at equal score). -/
def sortDesc (l : List (List Char × ℚ)) : List (List Char × ℚ) :=
  l.foldl (fun acc x => insDesc x acc) []

/-- `ModificationEngine._choose_best_synonym` (lines 346-368): score every
candidate, stably sort by descending score, keep the top three, pick one
with `random.choice`. -/
def chooseBestSynonym (recently : List (List Char))
    (synonyms : List (List Char)) (rng : PyRandom) : List Char × PyRandom :=
  let scored := synonyms.map (fun syn => (syn, synScore recently synonyms syn))
  let top := (sortDesc scored).take 3
  let (pair, rng') := pyChoice rng top ([], 0)
  (pair.1, rng')

/-- Python `str.capitalize()`: first character uppercased, the rest
lowercased. -/
def pyCapitalize : List Char → List Char
  | [] => []
  | c :: cs => upperC c :: lowerL cs

/-- The engine state used by `replace_synonyms_contextual`: the ambient
random generator and the `recently_used` deque (`maxlen=50`). -/
structure SynState where
  rng : PyRandom
  recently : List (List Char)

/-- One iteration of the loop of `replace_synonyms_contextual`
(lines 324-342), for the token `w`:  look the punctuation-stripped
lowercased token up in the synonym map; on a hit draw `random.random()`
and compare with `config.synonym_replacement`; `continue` if the key is
among the last five recently used; otherwise replace by the chosen synonym,
capitalized when `word[0].isupper()`, with
`''.join(c for c in word if c in '.,!?;:')` appended, and append the key to
the recency deque. -/
def synStep (p : ℚ) (st : SynState) (w : List Char) : List Char × SynState :=
  let word_clean := cleanWord w
  match synonymsDict.lookup word_clean with
  | none => (w, st)
  | some syns =>
    let (q, rng1) := st.rng.next
    if q < p then
      if (last5 st.recently).contains word_clean then
        (w, ⟨rng1, st.recently⟩)
      else
        let (syn, rng2) := chooseBestSynonym st.recently syns rng1
        let syn2 :=
          if (w.head?.map Char.isUpper).getD false then pyCapitalize syn
          else syn
        let punct := w.filter (fun c => (litL ".,!?;:").contains c)
        (syn2 ++ punct, ⟨rng2, dequePush 50 word_clean st.recently⟩)
    else (w, ⟨rng1, st.recently⟩)

/-- The loop of `replace_synonyms_contextual` over all tokens, threading the
random generator and the recency deque. -/
def synFold (p : ℚ) : SynState → List (List Char) → List (List Char) × SynState
  | st, [] => ([], st)
  | st, w :: ws =>
    let (w', st') := synStep p st w
    let (ws', st'') := synFold p st' ws
    (w' :: ws', st'')

/-- `ModificationEngine.replace_synonyms_contextual` (lines 319-344):
tokenize with `text.split()`, run the replacement loop, re-join with
`' '.join(words)`.  `formality_level` is accepted and ignored (the
`_choose_best_synonym` parameter it feeds is unused). -/
def replaceSynonymsContextual (config : ModificationConfig)
    (_formality_level : String) (st : SynState) (l : List Char) :
    List Char × SynState :=
  let (ws, st') := synFold config.synonym_replacement st (pySplit l)
  (joinSpace ws, st')

/-- The trailing punctuation of a token: its maximal suffix of characters
from the strip set `'.,!?;:()[]{}'` (the claim's notion of the punctuation
stripped to form the lookup key). -/
def trailingPunct (w : List Char) : List Char :=
  (w.reverse.takeWhile (fun c => (litL ".,!?;:()[]{}").contains c)).reverse

/-- Modelled from the claim's words (amended form of C5), as the per-token
map: a token is replaced exactly when its key is in the synonym map, the
uniform draw is below `config.synonym_replacement` and the key is not among
the last 5 entries of the recency buffer; the replacement is the chosen
synonym, its first letter capitalized iff the token's first character is
uppercase, followed by **all** characters of the original token drawn from
`'.,!?;:'` in order (leading ones included — not the token's trailing
punctuation); the key is then pushed onto the size-50 recency buffer.
A dictionary miss leaves the token and the buffer unchanged; a hit whose
draw fails or whose key is recent leaves the token unchanged and consumes
one draw. -/
def synTokenSpec (p : ℚ) (st : SynState) (w : List Char) :
    List Char × SynState :=
  let key := cleanWord w
  match synonymsDict.lookup key with
  | none => (w, st)
  | some syns =>
    let draw := st.rng.seq st.rng.pos
    let advanced : PyRandom := ⟨st.rng.seq, st.rng.pos + 1⟩
    if draw < p ∧ ¬ (last5 st.recently).contains key = true then
      let (syn, rng2) := chooseBestSynonym st.recently syns advanced
      let capitalized :=
        match w.head? with
        | some c => if c.isUpper then pyCapitalize syn else syn
        | none => syn
      (capitalized ++ w.filter (fun c => (litL ".,!?;:").contains c),
        ⟨rng2, dequePush 50 key st.recently⟩)
    else (w, ⟨advanced, st.recently⟩)

/-- `synTokenSpec` threaded over a token list. -/
def synSpecFold (p : ℚ) :
    SynState → List (List Char) → List (List Char) × SynState
  | st, [] => ([], st)
  | st, w :: ws =>
    let (w', st') := synTokenSpec p st w
    let (ws', st'') := synSpecFold p st' ws
    (w' :: ws', st'')

/-! ## `Humanizer._intelligent_cleanup`

Source: `humanizer.py`, lines 472-531.  Each `re.sub` is realized as a
dedicated scanner; the generic non-overlapping substitution driver
`subMatches` mirrors `re.sub` for matchers with a constant replacement. -/

/-- Generic `re.sub` driver with constant replacement `rep`: scan left to
right, replace each match reported by `m` (which sees the remaining text and
a word-character flag for the previous character), resume after it. -/
def subMatches (m : List Char → Bool → Option Nat) (rep : List Char) :
    Nat → Bool → List Char → List Char
  | _, _, [] => []
  | skip + 1, _, c :: rest => subMatches m rep skip (isWordChar c) rest
  | 0, prev, c :: rest =>
    match m (c :: rest) prev with
    | some (n + 1) => rep ++ subMatches m rep n (isWordChar c) rest
    | _ => c :: subMatches m rep 0 (isWordChar c) rest

/-- `re.sub(r'\s+', ' ', text)`: each maximal whitespace run becomes one
space (`inRun` tracks whether the current run already emitted its space). -/
def collapseWsAux : Bool → List Char → List Char
  | _, [] => []
  | inRun, c :: rest =>
    if isPySpace c then
      if inRun then collapseWsAux true rest
      else ' ' :: collapseWsAux true rest
    else c :: collapseWsAux false rest

def collapseWs (l : List Char) : List Char := collapseWsAux false l

def isPunct6 (c : Char) : Bool :=
  c = '.' || c = ',' || c = '!' || c = '?' || c = ';' || c = ':'

/-- `re.sub(r'\s+([.,!?;:])', r'\1', text)`: `pending` buffers a whitespace
run (reversed) until we know whether a punctuation character follows it. -/
def subSpacePunctAux (pending : List Char) : List Char → List Char
  | [] => pending.reverse
  | c :: rest =>
    if isPySpace c then subSpacePunctAux (c :: pending) rest
    else if !pending.isEmpty && isPunct6 c then c :: subSpacePunctAux [] rest
    else pending.reverse ++ c :: subSpacePunctAux [] rest

def subSpacePunct (l : List Char) : List Char := subSpacePunctAux [] l

/-- The dash class `[—–‒―—–-]` of the em-dash removal. -/
def isDashChar (c : Char) : Bool :=
  c = '-' || c.val = 0x2014 || c.val = 0x2013 || c.val = 0x2012 || c.val = 0x2015

/-- State of the dash-removal scanner: scanning (whitespace buffered), inside
the 1-3 dash core (`dashes k` = up to `k` more dashes absorbed), or in the
trailing whitespace of a match. -/
inductive DashMode where
  | scan : DashMode
  | dashes : Nat → DashMode
  | trail : DashMode

/-- `re.sub(r'[\s\xa0 ]*[—–‒―—–-]{1,3}[\s\xa0 ]*', ', ', text)`. -/
def subDashAux : DashMode → List Char → List Char → List Char
  | .scan, pending, [] => pending.reverse
  | .scan, pending, c :: rest =>
    if isPySpace c then subDashAux .scan (c :: pending) rest
    else if isDashChar c then ',' :: ' ' :: subDashAux (.dashes 2) [] rest
    else pending.reverse ++ c :: subDashAux .scan [] rest
  | .dashes _, _, [] => []
  | .dashes k, _, c :: rest =>
    if k > 0 && isDashChar c then subDashAux (.dashes (k - 1)) [] rest
    else if isPySpace c then subDashAux .trail [] rest
    else if isDashChar c then ',' :: ' ' :: subDashAux (.dashes 2) [] rest
    else c :: subDashAux .scan [] rest
  | .trail, _, [] => []
  | .trail, _, c :: rest =>
    if isPySpace c then subDashAux .trail [] rest
    else if isDashChar c then ',' :: ' ' :: subDashAux (.dashes 2) [] rest
    else c :: subDashAux .scan [] rest

def subDash (l : List Char) : List Char := subDashAux .scan [] l

/-- The compound-word whitelist (lines 482-486). -/
def compoundsList : List (List Char) :=
  [litL "decision-making", litL "well-being", litL "long-term",
   litL "real-time", litL "short-term", litL "high-quality",
   litL "low-cost", litL "full-time", litL "part-time",
   litL "state-of-the-art", litL "up-to-date"]

def splitHyphenAux (acc : List Char) : List Char → List (List Char)
  | [] => [acc.reverse]
  | c :: rest =>
    if c = '-' then acc.reverse :: splitHyphenAux [] rest
    else splitHyphenAux (c :: acc) rest

/-- `compound.split('-')`, the parts of `compound.replace('-', ',\s*')`. -/
def splitHyphen (l : List Char) : List (List Char) := splitHyphenAux [] l

/-- Matcher for the tail `,\s*part` repetitions of a broken compound. -/
def matchCompAux : List (List Char) → List Char → Option Nat
  | [], _ => some 0
  | p :: ps, l =>
    match l with
    | ',' :: r =>
      let ws := r.takeWhile isPySpace
      let r1 := r.dropWhile isPySpace
      if isPrefixCI p r1 then
        (matchCompAux ps (r1.drop p.length)).map
          (fun n => 1 + ws.length + p.length + n)
      else none
    | _ => none

/-- Matcher for `\bpart₁,\s*part₂(,\s*…)\b` (case-insensitive). -/
def matchCompound (parts : List (List Char)) (l : List Char) (prev : Bool) :
    Option Nat :=
  if prev then none
  else
    match parts with
    | [] => none
    | p :: ps =>
      if isPrefixCI p l then
        match matchCompAux ps (l.drop p.length) with
        | some n =>
          if endBoundary (l.drop (p.length + n)) then some (p.length + n)
          else none
        | none => none
      else none

/-- The compound-restoration loop (lines 488-490): each broken compound is
re-substituted by its (lower-case) hyphenated form. -/
def restoreCompounds (l : List Char) : List Char :=
  compoundsList.foldl
    (fun acc comp => subMatches (matchCompound (splitHyphen comp)) comp 0 false acc) l

/-- Matcher for `\b(So|But|Well|Now|Also|Plus),\s+(So|But|Well|Now|Also|Plus)\b`
(case-insensitive); returns (group-1 length, total match length). -/
def matchConnPair (l : List Char) (prev : Bool) : Option (Nat × Nat) :=
  if prev then none
  else
    [litL "so", litL "but", litL "well", litL "now", litL "also",
     litL "plus"].findSome? fun a =>
      if isPrefixCI a l then
        match l.drop a.length with
        | ',' :: r =>
          let ws := r.takeWhile isPySpace
          if ws.isEmpty then none
          else
            let r1 := r.dropWhile isPySpace
            [litL "so", litL "but", litL "well", litL "now", litL "also",
             litL "plus"].findSome? fun b =>
              if isPrefixCI b r1 && endBoundary (r1.drop b.length) then
                some (a.length, a.length + 1 + ws.length + b.length)
              else none
        | _ => none
      else none

/-- `re.sub(r'\b(So|…),\s+(So|…)\b', r'\1', text)`: the replacement is the
matched first connective itself (group reference, case preserved). -/
def subDoubleConnAux : Nat → Bool → List Char → List Char
  | _, _, [] => []
  | skip + 1, _, c :: rest => subDoubleConnAux skip (isWordChar c) rest
  | 0, prev, c :: rest =>
    match matchConnPair (c :: rest) prev with
    | some (g1, total) =>
      (c :: rest).take g1 ++ subDoubleConnAux (total - 1) (isWordChar c) rest
    | none => c :: subDoubleConnAux 0 (isWordChar c) rest

def subDoubleConn (l : List Char) : List Char := subDoubleConnAux 0 false l

/-- The protected acronym whitelist of the mid-sentence de-capitalization
loop (line 502). -/
def decapWhitelist : List (List Char) :=
  [litL "ai", litL "api", litL "http", litL "sql", litL "xml", litL "html",
   litL "css", litL "json", litL "url"]

def endsWithPunct3 (w : List Char) : Bool :=
  match w.getLast? with
  | some c => c = '.' || c = '!' || c = '?'
  | none => false

/-- The body of the de-capitalization loop (lines 497-504): a word longer
than 2 characters starting with an uppercase letter is lower-cased when the
previous word does not end a sentence and the word is not a protected
acronym. -/
def decapStep (prevW w : List Char) : List Char :=
  match w with
  | [] => []
  | c :: cs =>
    if w.length > 2 ∧ c.isUpper = true ∧ ¬ endsWithPunct3 prevW = true ∧
        ¬ decapWhitelist.contains (lowerL w) = true then
      lowerC c :: cs
    else w

def decapAux : List Char → List (List Char) → List (List Char)
  | _, [] => []
  | prevW, w :: ws =>
    let w' := decapStep prevW w
    w' :: decapAux w' ws

/-- The whole de-capitalization pass: split on whitespace, fix words 1…n-1
against their (possibly already fixed) predecessor, re-join with spaces. -/
def fixMidCaps (l : List Char) : List Char :=
  match pySplit l with
  | [] => []
  | w :: ws => joinSpace (w :: decapAux w ws)

/-- Matcher for `\bWORD,?\s+` (case-insensitive) used by the residual
AI-pattern removals (lines 507-509). -/
def matchResidual (word : List Char) (l : List Char) (prev : Bool) :
    Option Nat :=
  if prev then none
  else if isPrefixCI word l then
    let r := l.drop word.length
    match r with
    | ',' :: rr =>
      let ws := rr.takeWhile isPySpace
      if ws.isEmpty then none else some (word.length + 1 + ws.length)
    | _ =>
      let ws := r.takeWhile isPySpace
      if ws.isEmpty then none else some (word.length + ws.length)
  else none

/-- `\.\s*,\s*` (replaced by `'. '`). -/
def matchDotComma (l : List Char) (_prev : Bool) : Option Nat :=
  match l with
  | '.' :: r =>
    let ws1 := r.takeWhile isPySpace
    match r.dropWhile isPySpace with
    | ',' :: r2 =>
      let ws2 := r2.takeWhile isPySpace
      some (1 + ws1.length + 1 + ws2.length)
    | _ => none
  | _ => none

/-- `,\s+\.` (replaced by `'.'`). -/
def matchCommaDot (l : List Char) (_prev : Bool) : Option Nat :=
  match l with
  | ',' :: r =>
    let ws1 := r.takeWhile isPySpace
    if ws1.isEmpty then none
    else
      match r.dropWhile isPySpace with
      | '.' :: _ => some (1 + ws1.length + 1)
      | _ => none
  | _ => none

/-- `,\s*,+` (replaced by `','`). -/
def matchCommaComma (l : List Char) (_prev : Bool) : Option Nat :=
  match l with
  | ',' :: r =>
    let ws1 := r.takeWhile isPySpace
    match r.dropWhile isPySpace with
    | ',' :: r2 =>
      let commas := r2.takeWhile (· = ',')
      some (1 + ws1.length + 1 + commas.length)
    | _ => none
  | _ => none

/-- `\.\.+` (replaced by `'.'`). -/
def matchDotRun (l : List Char) (_prev : Bool) : Option Nat :=
  match l with
  | '.' :: r =>
    let dots := r.takeWhile (· = '.')
    if dots.isEmpty then none else some (1 + dots.length)
  | _ => none

def isSentPunct (c : Char) : Bool := c = '.' || c = '!' || c = '?'

/-- The capitalization applied to the first character of each `re.split`
piece (`sentences[i][0].upper()` guarded by `isalpha()`). -/
def capSentStartChar (c : Char) : Char := if c.isAlpha then upperC c else c

/-- State of the sentence-capitalization scanner: inside a piece, at a piece
start, or inside a separator's whitespace run. -/
inductive CapMode where
  | piece : CapMode
  | start : CapMode
  | sepWs : CapMode

/-- The sentence-capitalization pass (lines 521-525):
`re.split(r'([.!?]\s+)', text)` keeps the separators, the loop uppercases
the first alphabetic character of every piece, and `''.join` reassembles.
Net effect: the first alphabetic character of the text and the first
character after each `[.!?]\s+` separator are uppercased. -/
def capSentAux : CapMode → List Char → List Char
  | _, [] => []
  | .sepWs, c :: rest =>
    if isPySpace c then c :: capSentAux .sepWs rest
    else if isSentPunct c && (rest.head?.map isPySpace).getD false then
      c :: capSentAux .sepWs rest
    else capSentStartChar c :: capSentAux .piece rest
  | .start, c :: rest =>
    if isSentPunct c && (rest.head?.map isPySpace).getD false then
      c :: capSentAux .sepWs rest
    else capSentStartChar c :: capSentAux .piece rest
  | .piece, c :: rest =>
    if isSentPunct c && (rest.head?.map isPySpace).getD false then
      c :: capSentAux .sepWs rest
    else c :: capSentAux .piece rest

def capSentences (l : List Char) : List Char := capSentAux .start l

/-- `if text and text[0].islower(): text = text[0].upper() + text[1:]`
(lines 528-529). -/
def capFirstLower : List Char → List Char
  | [] => []
  | c :: cs => if c.isLower then upperC c :: cs else c :: cs

/-- `Humanizer._intelligent_cleanup` (lines 472-531): the fifteen
normalization passes in source order. -/
def intelligentCleanup (l : List Char) : List Char :=
  let t1 := collapseWs l
  let t2 := subSpacePunct t1
  let t3 := subDash t2
  let t4 := restoreCompounds t3
  let t5 := subDoubleConn t4
  let t6 := fixMidCaps t5
  let t7 := subMatches (matchResidual (litL "subsequently")) [] 0 false t6
  let t8 := subMatches (matchResidual (litL "furthermore")) [] 0 false t7
  let t9 := subMatches (matchResidual (litL "moreover")) [] 0 false t8
  let t10 := subMatches matchDotComma (litL ". ") 0 false t9
  let t11 := subMatches matchCommaDot (litL ".") 0 false t10
  let t12 := subMatches matchCommaComma (litL ",") 0 false t11
  let t13 := subMatches matchDotRun (litL ".") 0 false t12
  let t14 := collapseWs t13
  let t15 := capSentences t14
  let t16 := capFirstLower t15
  pyStripWs t16

/-! ## Observable predicates for the cleanup post-conditions (C8, C9) -/

/-- Does some adjacent character pair of the list satisfy `p`? -/
def adjPair (p : Char → Char → Bool) : List Char → Bool
  | a :: b :: rest => p a b || adjPair p (b :: rest)
  | _ => false

/-- After skipping leading whitespace: if the next character is a letter, it
must be uppercase. -/
def afterWsOk (l : List Char) : Bool :=
  match l.dropWhile isPySpace with
  | d :: _ => !d.isAlpha || d.isUpper
  | [] => true

/-- The claim's sentence-boundary condition for the text following a
terminator: if whitespace follows and then a letter, that letter is
uppercase. -/
def boundaryLetterOk (l : List Char) : Bool :=
  if (l.takeWhile isPySpace).isEmpty then true else afterWsOk l

/-- Every sentence boundary (`.`, `!` or `?` followed by whitespace and then
a letter) is followed by an uppercase letter. -/
def boundariesUpper : List Char → Bool
  | [] => true
  | c :: rest =>
    (if isSentPunct c then boundaryLetterOk rest else true) &&
      boundariesUpper rest

def isWsPair (a b : Char) : Bool := isPySpace a && isPySpace b

def isCommaPair (a b : Char) : Bool := a = ',' && b = ','

def isDotPair (a b : Char) : Bool := a = '.' && b = '.'

def isSpacePunctPair (a b : Char) : Bool := isPySpace a && isPunct6 b

/-- Every whitespace character is a plain space and no two are adjacent
(all whitespace runs collapsed to single spaces). -/
def wsSingleSpaced (l : List Char) : Bool :=
  l.all (fun c => !isPySpace c || c = ' ') && !adjPair isWsPair l

/-! ## `Humanizer.humanize` and its helpers

Source: `humanizer.py`, lines 386-470 (orchestration), 533-588 (quality
metrics) and 233-253 (`get_config_for_tone`).  The five transformation
steps of the `try` block are parameters of type `Step`: each sees the text
and the engine state (random generator and recency deque) and may fail with
an exception; every theorem about `humanizeWith` therefore covers every
possible behaviour of the steps, including the embedded real ones
(`step3OfConfig`, `step4Real`).  The orchestration around the steps —
guard, analysis, config scaling, modification counter, exception fallback,
final cleanup, quality metrics, result dictionary — is translated from the
source; the result dictionary is an association list over the literal key
strings of the two `return` statements. -/

/-- A transformation step of the pipeline: text in, text out, threading the
engine state; a Python exception is `Except.error`. -/
def Step : Type :=
  List Char → SynState → Except String (List Char × SynState)

/-- `ModificationEngine.get_config_for_tone` (lines 233-253): the `tone`
argument is never consulted; only `is_already_human` selects between the
two literal configurations. -/
def getConfigForTone (_tone : String) (is_already_human : Bool) :
    ModificationConfig :=
  if is_already_human then
    { uncertainty_probability := 0, colloquial_probability := 0,
      sentence_variation := 0, personal_touches := 0,
      synonym_replacement := 12/100, structure_modification := 0,
      max_modifications_per_sentence := 1 }
  else
    { uncertainty_probability := 0, colloquial_probability := 0,
      sentence_variation := 0, personal_touches := 0,
      synonym_replacement := 40/100, structure_modification := 0,
      max_modifications_per_sentence := 1 }

/-- `Humanizer._scale_config` (lines 460-470). -/
def scaleConfig (config : ModificationConfig) (intensity : ℚ) :
    ModificationConfig :=
  { uncertainty_probability := config.uncertainty_probability * intensity,
    colloquial_probability := config.colloquial_probability * intensity,
    sentence_variation := config.sentence_variation * intensity,
    personal_touches := config.personal_touches * intensity,
    synonym_replacement := config.synonym_replacement * intensity,
    structure_modification := config.structure_modification * intensity,
    max_modifications_per_sentence :=
      config.max_modifications_per_sentence }

/-- Python `round(x, 3)` on exact rationals. -/
def round3 (q : ℚ) : ℚ := (pyRoundEven (q * 1000) : ℚ) / 1000

/-- `Humanizer._calculate_variance` (lines 581-588). -/
def calcVariance (numbers : List ℕ) : ℚ :=
  if numbers.isEmpty then 0
  else
    let mean : ℚ := (numbers.map (fun x => (x : ℚ))).sum / numbers.length
    ((numbers.map (fun x => ((x : ℚ) - mean) ^ 2)).sum) / numbers.length

/-- The quality-metrics dictionary of `_calculate_quality_metrics`
(lines 533-579). -/
structure QualityMetrics where
  vocabulary_change_ratio : ℚ
  burstiness_increase : ℚ
  tone_preserved : Bool
  original_tone : String
  length_change_percent : ℚ
  formality_shift : ℚ
  readability_maintained : Bool
  deriving Repr, DecidableEq

/-- The all-zero metrics returned when either text is empty
(lines 540-549). -/
def zeroMetrics : QualityMetrics :=
  { vocabulary_change_ratio := 0, burstiness_increase := 0,
    tone_preserved := true, original_tone := "neutral",
    length_change_percent := 0, formality_shift := 0,
    readability_maintained := true }

/-- `Humanizer._calculate_quality_metrics` (lines 533-579): the two
`analyze` calls may raise (surfaced as `Except.error`, evaluated in source
order); the rest is the source's arithmetic on exact rationals.  Python's
sets are embedded as deduplicated lists (only sizes and membership are
consumed). -/
def calculateQualityMetrics (original modified : List Char) :
    Except String QualityMetrics :=
  if original.isEmpty || modified.isEmpty then .ok zeroMetrics
  else
    match analyzeE original with
    | .error e => .error e
    | .ok orig_analysis =>
      match analyzeE modified with
      | .error e => .error e
      | .ok mod_analysis =>
        let orig_words := (pySplit (lowerL original)).dedup
        let mod_words := (pySplit (lowerL modified)).dedup
        let vocabulary_change : ℚ :=
          if orig_words.isEmpty then 0
          else
            ((mod_words.filter
              (fun w => !orig_words.contains w)).length : ℚ)
              / orig_words.length
        let orig_lengths :=
          (splitSentences original).map (fun s => (pySplit s).length)
        let mod_lengths :=
          (splitSentences modified).map (fun s => (pySplit s).length)
        let orig_variance := calcVariance orig_lengths
        let mod_variance := calcVariance mod_lengths
        let burstiness_increase :=
          (mod_variance - orig_variance) / (orig_variance + 1)
        let length_change : ℚ :=
          if !original.isEmpty then
            ((modified.length : ℚ) - original.length)
              / original.length * 100
          else 0
        .ok {
          vocabulary_change_ratio := round3 vocabulary_change,
          burstiness_increase := round3 burstiness_increase,
          tone_preserved :=
            decide (orig_analysis.target_tone = mod_analysis.target_tone),
          original_tone := orig_analysis.target_tone,
          length_change_percent := round2 length_change,
          formality_shift := round2 (mod_analysis.formality_score
            - orig_analysis.formality_score),
          readability_maintained := decide (|length_change| < 10) }

/-- The value type of the result dictionary of `humanize`. -/
inductive FieldVal where
  | str : List Char → FieldVal
  | num : ℕ → FieldVal
  | analysisOpt : Option TextAnalysis → FieldVal
  | config : ModificationConfig → FieldVal
  | metrics : QualityMetrics → FieldVal
  | boolean : Bool → FieldVal
  deriving Repr, DecidableEq

instance {ε α : Type} [DecidableEq ε] [DecidableEq α] :
    DecidableEq (Except ε α) := fun x y =>
  match x, y with
  | .ok a, .ok b =>
    if h : a = b then isTrue (by rw [h])
    else isFalse (fun hh => h (by injection hh))
  | .error a, .error b =>
    if h : a = b then isTrue (by rw [h])
    else isFalse (fun hh => h (by injection hh))
  | .ok _, .error _ => isFalse (fun hh => Except.noConfusion hh)
  | .error _, .ok _ => isFalse (fun hh => Except.noConfusion hh)

/-- The `try` block of `humanize` (lines 417-446): each completed step
increments the counter; steps 2-5 run only when the analysis did not mark
the text as already human; the final `_intelligent_cleanup` (line 444,
total in the embedding) does not increment; on a failure the text — but not
the counter — is rolled back to the input (lines 445-447).  Returns the
final `modified_text` and `modifications_count`. -/
def runPipeline (s1 s2 s3 s4 s5 : Step) (is_already_human : Bool)
    (text : List Char) (st : SynState) : List Char × Nat :=
  match s1 text st with
  | .error _ => (text, 0)
  | .ok (t1, st1) =>
    if is_already_human then (intelligentCleanup t1, 1)
    else
      match s2 t1 st1 with
      | .error _ => (text, 1)
      | .ok (t2, st2) =>
        match s3 t2 st2 with
        | .error _ => (text, 2)
        | .ok (t3, st3) =>
          match s4 t3 st3 with
          | .error _ => (text, 3)
          | .ok (t4, st4) =>
            match s5 t4 st4 with
            | .error _ => (text, 4)
            | .ok (t5, _) => (intelligentCleanup t5, 5)

/-- Observable for the claims about the exception path: does some step of
the pipeline raise?  (Steps 2-5 are reached only when the text was not
marked as already human.) -/
def pipelineRaises (s1 s2 s3 s4 s5 : Step) (is_already_human : Bool)
    (text : List Char) (st : SynState) : Bool :=
  match s1 text st with
  | .error _ => true
  | .ok (t1, st1) =>
    if is_already_human then false
    else
      match s2 t1 st1 with
      | .error _ => true
      | .ok (t2, st2) =>
        match s3 t2 st2 with
        | .error _ => true
        | .ok (t3, st3) =>
          match s4 t3 st3 with
          | .error _ => true
          | .ok (t4, st4) =>
            match s5 t4 st4 with
            | .error _ => true
            | .ok _ => false

/-- The claims' notion of the progress made before an exception: how many
transformation steps ran to completion (an indicator sum independent of the
pipeline fold). -/
def completedCount (s1 s2 s3 s4 s5 : Step) (is_already_human : Bool)
    (text : List Char) (st : SynState) : Nat :=
  match s1 text st with
  | .error _ => 0
  | .ok (t1, st1) =>
    1 + (if is_already_human then 0
      else
        match s2 t1 st1 with
        | .error _ => 0
        | .ok (t2, st2) =>
          1 + match s3 t2 st2 with
            | .error _ => 0
            | .ok (t3, st3) =>
              1 + match s4 t3 st3 with
                | .error _ => 0
                | .ok (t4, st4) =>
                  1 + match s5 t4 st4 with
                    | .error _ => 0
                    | .ok _ => 1)

/-- `Humanizer.humanize` (lines 386-458), parametric in the five
transformation steps (step 3 receives the scaled configuration and the
target tone, as at lines 428-430).  The guard (lines 398-404) returns a
four-key dictionary; the full path returns the seven-key dictionary of
lines 450-458.  `analyze` (line 411) and `_calculate_quality_metrics`
(line 449) run *outside* the `try` block, so their failures would
propagate.  `preserve_formatting` is accepted and never consulted. -/
def humanizeWith (s1 s2 : Step) (s3 : ModificationConfig → String → Step)
    (s4 s5 : Step) (st : SynState) (text : List Char) (intensity : ℚ)
    (_preserve_formatting : Bool) :
    Except String (List (String × FieldVal)) :=
  if text.isEmpty || (pyStripWs text).length < 10 then
    .ok [("original", .str text), ("humanized", .str text),
         ("analysis", .analysisOpt none), ("modifications_applied", .num 0)]
  else
    match analyzeE text with
    | .error e => .error e
    | .ok analysis =>
      let base_config := getConfigForTone analysis.target_tone
        analysis.is_already_human
      let intensity2 := if analysis.is_already_human then
          min (intensity * (15/100)) (1/10)
        else intensity
      let scaled_config := scaleConfig base_config intensity2
      let step3 := s3 scaled_config analysis.target_tone
      let res := runPipeline s1 s2 step3 s4 s5 analysis.is_already_human
        text st
      match calculateQualityMetrics text res.1 with
      | .error e => .error e
      | .ok quality_metrics =>
        .ok [("original", .str text),
             ("humanized", .str res.1),
             ("analysis", .analysisOpt (some analysis)),
             ("config_used", .config scaled_config),
             ("modifications_applied", .num res.2),
             ("quality_metrics", .metrics quality_metrics),
             ("was_already_human", .boolean analysis.is_already_human)]

/-- The real step 3, `replace_synonyms_contextual` (total in the
embedding), as the `Step` family fed with the scaled configuration and the
target tone. -/
def step3OfConfig (config : ModificationConfig) (tone : String) : Step :=
  fun l st =>
    let r := replaceSynonymsContextual config tone st l
    .ok (r.1, r.2)

/-- The real step 4, `reduce_the_repetition` (total in the embedding). -/
def step4Real : Step := fun l st => .ok (reduceTheRepetition l, st)

/-- A step that succeeds without modifying anything. -/
def idStep : Step := fun l st => .ok (l, st)

/-- The constant `idStep` step-3 family. -/
def idStep3 : ModificationConfig → String → Step := fun _ _ => idStep

/-- A step that always raises. -/
def failStep : Step := fun _ _ => .error "boom"

/-- A deterministic all-zero random stream. -/
def zeroRng : PyRandom := ⟨fun _ => 0, 0⟩

/-- A fresh engine state. -/
def initState : SynState := ⟨zeroRng, []⟩

/-! # Theorems -/

section Theorems

/- `Rat.add`, `Rat.mul`, `Rat.inv` and `Rat.sub` are `@[irreducible]` in
Batteries; making them semireducible lets `decide` evaluate the (exact)
rational score arithmetic of the embedding. -/
attribute [local semireducible] Rat.add Rat.mul Rat.inv Rat.sub

/-- Claim C1 (code bug): `TextAnalyzer.analyze` does **not** return zero
statistics on empty or whitespace-only input — it raises
`ZeroDivisionError`.  For such input the sentence list is empty, and the
`formality_score` line divides `formal_count / sentence_count` without the
`if sentence_count > 0` guard that the neighbouring `avg_sentence_length`
line has.  The theorem evaluates the embedded code at the failing inputs
`""` and `"   \n\t "`. -/
theorem claim_C1_code_bug :
    analyze "" = Except.error "ZeroDivisionError: division by zero" ∧
    analyze "   \n\t " = Except.error "ZeroDivisionError: division by zero" :=
  ⟨rfl, rfl⟩

theorem char_toNat_ofNat (n : Nat) (h : n.isValidChar) :
    (Char.ofNat n).toNat = n := by
  unfold Char.ofNat
  rw [dif_pos h]
  unfold Char.ofNatAux Char.toNat
  simp [UInt32.toNat, BitVec.toNat_ofNatLt]

theorem isUpper_iff (c : Char) :
    c.isUpper = true ↔ 65 ≤ c.toNat ∧ c.toNat ≤ 90 := by
  unfold Char.isUpper
  rw [Bool.and_eq_true]
  simp only [UInt32.le_def, BitVec.le_def, decide_eq_true_eq]
  exact Iff.rfl

theorem isLower_iff (c : Char) :
    c.isLower = true ↔ 97 ≤ c.toNat ∧ c.toNat ≤ 122 := by
  unfold Char.isLower
  rw [Bool.and_eq_true]
  simp only [UInt32.le_def, BitVec.le_def, decide_eq_true_eq]
  exact Iff.rfl

theorem isAlpha_iff (c : Char) :
    c.isAlpha = true ↔
      (65 ≤ c.toNat ∧ c.toNat ≤ 90) ∨ (97 ≤ c.toNat ∧ c.toNat ≤ 122) := by
  unfold Char.isAlpha
  rw [Bool.or_eq_true, isUpper_iff, isLower_iff]

theorem upperC_toNat (c : Char) :
    (upperC c).toNat = if 97 ≤ c.toNat ∧ c.toNat ≤ 122 then c.toNat - 32
      else c.toNat := by
  unfold upperC Char.toUpper
  show (if c.toNat ≥ 97 ∧ c.toNat ≤ 122 then Char.ofNat (c.toNat - 32)
    else c).toNat = _
  by_cases h : 97 ≤ c.toNat ∧ c.toNat ≤ 122
  · rw [if_pos ⟨h.1, h.2⟩, if_pos h]
    exact char_toNat_ofNat _ (Or.inl (by omega))
  · rw [if_neg (fun hc => h ⟨hc.1, hc.2⟩), if_neg h]

theorem upperC_isUpper (c : Char) (h : c.isAlpha = true) :
    (upperC c).isUpper = true := by
  rw [isAlpha_iff] at h
  rw [isUpper_iff, upperC_toNat]
  split <;> omega

theorem isUpper_not_pySpace (c : Char) (h : c.isUpper = true) :
    isPySpace c = false := by
  by_contra hc
  rw [Bool.not_eq_false] at hc
  have hmem : c ∈ pySpaceChars := by
    simpa [isPySpace] using hc
  fin_cases hmem <;> revert h <;> decide

theorem isAlpha_not_pySpace (c : Char) (h : c.isAlpha = true) :
    isPySpace c = false := by
  by_contra hc
  rw [Bool.not_eq_false] at hc
  have hmem : c ∈ pySpaceChars := by
    simpa [isPySpace] using hc
  fin_cases hmem <;> revert h <;> decide

theorem isUpper_ne_comma (c : Char) (h : c.isUpper = true) : c ≠ ',' := by
  intro he
  rw [he] at h
  exact absurd h (by decide)

theorem isUpper_ne_dot (c : Char) (h : c.isUpper = true) : c ≠ '.' := by
  intro he
  rw [he] at h
  exact absurd h (by decide)

theorem capSentStartChar_eq_comma (c : Char)
    (h : capSentStartChar c = ',') : c = ',' := by
  unfold capSentStartChar at h
  split at h
  · next ha => exact absurd h (isUpper_ne_comma _ (upperC_isUpper c ha))
  · exact h

theorem capSentStartChar_eq_dot (c : Char)
    (h : capSentStartChar c = '.') : c = '.' := by
  unfold capSentStartChar at h
  split at h
  · next ha => exact absurd h (isUpper_ne_dot _ (upperC_isUpper c ha))
  · exact h

theorem capSentStartChar_pySpace (c : Char) :
    isPySpace (capSentStartChar c) = isPySpace c := by
  unfold capSentStartChar
  split
  · next ha =>
    rw [isUpper_not_pySpace _ (upperC_isUpper c ha), isAlpha_not_pySpace c ha]
  · rfl

theorem dropWhile_head?_false (p : Char → Bool) :
    ∀ (l : List Char) (c : Char), (l.dropWhile p).head? = some c → p c = false := by
  intro l
  induction l with
  | nil => intro c h; simp [List.dropWhile] at h
  | cons a as ih =>
    intro c h
    by_cases ha : p a
    · simp only [List.dropWhile_cons, ha, if_true] at h
      exact ih c h
    · simp only [List.dropWhile_cons, ha, if_false, List.head?_cons] at h
      cases Option.some.inj h
      simpa using ha

theorem drop_length_takeWhile (p : Char → Bool) :
    ∀ l : List Char, l.drop (l.takeWhile p).length = l.dropWhile p := by
  intro l
  induction l with
  | nil => rfl
  | cons c rest ih =>
    by_cases hc : p c
    · simp only [List.takeWhile_cons, List.dropWhile_cons, hc, if_true,
        List.length_cons, List.drop_succ_cons]
      exact ih
    · simp [List.takeWhile_cons, List.dropWhile_cons, hc]

theorem adjPair_cons_eq_false (p : Char → Char → Bool) (a : Char)
    (l : List Char) :
    adjPair p (a :: l) = false ↔
      (∀ b, l.head? = some b → p a b = false) ∧ adjPair p l = false := by
  cases l with
  | nil => simp [adjPair]
  | cons b r =>
    show (p a b || adjPair p (b :: r)) = false ↔ _
    simp [Bool.or_eq_false_iff]

theorem adjPair_tail (p : Char → Char → Bool) (l : List Char)
    (h : adjPair p l = false) : adjPair p l.tail = false := by
  cases l with
  | nil => exact h
  | cons a r => exact ((adjPair_cons_eq_false p a r).mp h).2

theorem adjPair_dropWhile (p : Char → Char → Bool) (q : Char → Bool) :
    ∀ l : List Char, adjPair p l = false →
      adjPair p (l.dropWhile q) = false := by
  intro l
  induction l with
  | nil => intro h; exact h
  | cons c rest ih =>
    intro h
    by_cases hc : q c
    · rw [List.dropWhile_cons, if_pos hc]
      exact ih (adjPair_tail p _ h)
    · rw [List.dropWhile_cons, if_neg hc]
      exact h

theorem adjPair_append_left (p : Char → Char → Bool) :
    ∀ (a b : List Char), adjPair p (a ++ b) = false →
      adjPair p a = false := by
  intro a
  induction a with
  | nil => intro b _; rfl
  | cons x xs ih =>
    intro b h
    rcases (adjPair_cons_eq_false p x (xs ++ b)).mp h with ⟨hhd, htl⟩
    refine (adjPair_cons_eq_false p x xs).mpr ⟨?_, ih b htl⟩
    intro y hy
    apply hhd
    cases xs with
    | nil => simp at hy
    | cons z zs => simpa using hy

theorem subMatches_head (m : List Char → Bool → Option Nat)
    (rep : List Char) (hrep : rep ≠ []) :
    ∀ (l : List Char) (skip : Nat) (prev : Bool) (c' : Char),
      (subMatches m rep skip prev l).head? = some c' →
      rep.head? = some c' ∨ (l.drop skip).head? = some c' := by
  intro l
  induction l with
  | nil => intro skip prev c' h; simp [subMatches] at h
  | cons c rest ih =>
    intro skip prev c' h
    match skip with
    | skip + 1 =>
      rw [show subMatches m rep (skip+1) prev (c :: rest) =
        subMatches m rep skip (isWordChar c) rest from rfl] at h
      rcases ih skip (isWordChar c) c' h with h1 | h1
      · exact Or.inl h1
      · exact Or.inr (by simpa using h1)
    | 0 =>
      rw [show subMatches m rep 0 prev (c :: rest) =
        (match m (c :: rest) prev with
         | some (n + 1) => rep ++ subMatches m rep n (isWordChar c) rest
         | _ => c :: subMatches m rep 0 (isWordChar c) rest) from rfl] at h
      cases hm : m (c :: rest) prev with
      | none =>
        rw [hm] at h
        simp only [List.head?_cons, Option.some.injEq] at h
        exact Or.inr (by simp [← h])
      | some n =>
        cases n with
        | zero =>
          rw [hm] at h
          simp only [List.head?_cons, Option.some.injEq] at h
          exact Or.inr (by simp [← h])
        | succ k =>
          rw [hm] at h
          left
          cases rep with
          | nil => exact absurd rfl hrep
          | cons r rs => simpa using h

/-- Non-overlapping substitution by a single character `X` leaves no two
adjacent `X`s, provided the matcher is greedy past trailing `X`s
(`hGreedy`), only matches at an `X` (`hStart`), and cannot fail on two
adjacent `X`s (`hForce`). -/
theorem subMatches_single_noAdj (X : Char)
    (m : List Char → Bool → Option Nat)
    (hGreedy : ∀ l prev n, m l prev = some n →
      ∀ c', (l.drop n).head? = some c' → c' ≠ X)
    (hStart : ∀ l prev n, m l prev = some (n + 1) → l.head? = some X)
    (hForce : ∀ rest prev, rest.head? = some X →
      ∃ n, m (X :: rest) prev = some (n + 1)) :
    ∀ (l : List Char) (skip : Nat) (prev : Bool),
      adjPair (fun a b => a = X && b = X) (subMatches m [X] skip prev l)
        = false ∧
      (∀ c', (subMatches m [X] skip prev l).head? = some c' → c' = X →
        (l.drop skip).head? = some X) := by
  intro l
  induction l with
  | nil =>
    intro skip prev
    cases skip <;> exact ⟨rfl, by intro c' h; simp [subMatches] at h⟩
  | cons c rest ih =>
    intro skip prev
    match skip with
    | skip + 1 =>
      rw [show subMatches m [X] (skip+1) prev (c :: rest) =
        subMatches m [X] skip (isWordChar c) rest from rfl]
      refine ⟨(ih skip (isWordChar c)).1, ?_⟩
      intro c' h hX
      simpa using (ih skip (isWordChar c)).2 c' h hX
    | 0 =>
      rw [show subMatches m [X] 0 prev (c :: rest) =
        (match m (c :: rest) prev with
         | some (n + 1) => [X] ++ subMatches m [X] n (isWordChar c) rest
         | _ => c :: subMatches m [X] 0 (isWordChar c) rest) from rfl]
      cases hm : m (c :: rest) prev with
      | some n =>
        cases n with
        | succ k =>
          simp only [List.singleton_append]
          constructor
          · refine (adjPair_cons_eq_false _ X _).mpr
              ⟨?_, (ih k (isWordChar c)).1⟩
            intro b hb
            by_cases hbX : b = X
            · exfalso
              have hh := (ih k (isWordChar c)).2 b hb hbX
              exact hGreedy (c :: rest) prev (k + 1) hm b
                (by simpa [hbX] using hh) hbX
            · simp [hbX]
          · intro c' h _
            simpa using hStart (c :: rest) prev k hm
        | zero =>
          simp only []
          constructor
          · refine (adjPair_cons_eq_false _ c _).mpr
              ⟨?_, (ih 0 (isWordChar c)).1⟩
            intro b hb
            by_cases hcX : c = X
            · by_cases hbX : b = X
              · exfalso
                have hh := (ih 0 (isWordChar c)).2 b hb hbX
                simp only [List.drop_zero] at hh
                rcases hForce rest prev hh with ⟨n, hn⟩
                rw [hcX] at hm
                rw [hm] at hn
                simp at hn
              · simp [hbX]
            · simp [hcX]
          · intro c' h hX
            rw [List.head?_cons, Option.some.injEq] at h
            rw [List.drop_zero, List.head?_cons, h, hX]
      | none =>
        simp only []
        constructor
        · refine (adjPair_cons_eq_false _ c _).mpr
            ⟨?_, (ih 0 (isWordChar c)).1⟩
          intro b hb
          by_cases hcX : c = X
          · by_cases hbX : b = X
            · exfalso
              have hh := (ih 0 (isWordChar c)).2 b hb hbX
              simp only [List.drop_zero] at hh
              rcases hForce rest prev hh with ⟨n, hn⟩
              rw [hcX] at hm
              rw [hm] at hn
              simp at hn
            · simp [hbX]
          · simp [hcX]
        · intro c' h hX
          rw [List.head?_cons, Option.some.injEq] at h
          rw [List.drop_zero, List.head?_cons, h, hX]

/-- Substituting by a single character `Y ≠ X` never creates an adjacent
`X`-pair. -/
theorem subMatches_single_pres (X Y : Char) (hXY : Y ≠ X)
    (m : List Char → Bool → Option Nat) :
    ∀ (l : List Char) (skip : Nat) (prev : Bool),
      adjPair (fun a b => a = X && b = X) l = false →
      adjPair (fun a b => a = X && b = X) (subMatches m [Y] skip prev l)
        = false ∧
      (∀ c', (subMatches m [Y] skip prev l).head? = some c' → c' = X →
        (l.drop skip).head? = some X) := by
  intro l
  induction l with
  | nil =>
    intro skip prev _
    cases skip <;> exact ⟨rfl, by intro c' h; simp [subMatches] at h⟩
  | cons c rest ih =>
    intro skip prev hadj
    have hrest : adjPair (fun a b => a = X && b = X) rest = false :=
      adjPair_tail _ _ hadj
    match skip with
    | skip + 1 =>
      rw [show subMatches m [Y] (skip+1) prev (c :: rest) =
        subMatches m [Y] skip (isWordChar c) rest from rfl]
      refine ⟨(ih skip (isWordChar c) hrest).1, ?_⟩
      intro c' h hX
      simpa using (ih skip (isWordChar c) hrest).2 c' h hX
    | 0 =>
      rw [show subMatches m [Y] 0 prev (c :: rest) =
        (match m (c :: rest) prev with
         | some (n + 1) => [Y] ++ subMatches m [Y] n (isWordChar c) rest
         | _ => c :: subMatches m [Y] 0 (isWordChar c) rest) from rfl]
      cases hm : m (c :: rest) prev with
      | some n =>
        cases n with
        | succ k =>
          simp only [List.singleton_append]
          constructor
          · refine (adjPair_cons_eq_false _ Y _).mpr
              ⟨?_, (ih k (isWordChar c) hrest).1⟩
            intro b _
            simp [hXY]
          · intro c' h hX
            rw [List.head?_cons, Option.some.injEq] at h
            exact absurd (h.trans hX) hXY
        | zero =>
          simp only []
          constructor
          · refine (adjPair_cons_eq_false _ c _).mpr
              ⟨?_, (ih 0 (isWordChar c) hrest).1⟩
            intro b hb
            by_cases hcX : c = X
            · by_cases hbX : b = X
              · exfalso
                have hh := (ih 0 (isWordChar c) hrest).2 b hb hbX
                simp only [List.drop_zero] at hh
                rcases (adjPair_cons_eq_false _ c rest).mp hadj with ⟨hhd, -⟩
                have hfalse := hhd X hh
                rw [hcX] at hfalse
                simp at hfalse
              · simp [hbX]
            · simp [hcX]
          · intro c' h hX
            rw [List.head?_cons, Option.some.injEq] at h
            rw [List.drop_zero, List.head?_cons, h, hX]
      | none =>
        simp only []
        constructor
        · refine (adjPair_cons_eq_false _ c _).mpr
            ⟨?_, (ih 0 (isWordChar c) hrest).1⟩
          intro b hb
          by_cases hcX : c = X
          · by_cases hbX : b = X
            · exfalso
              have hh := (ih 0 (isWordChar c) hrest).2 b hb hbX
              simp only [List.drop_zero] at hh
              rcases (adjPair_cons_eq_false _ c rest).mp hadj with ⟨hhd, -⟩
              have hfalse := hhd X hh
              rw [hcX] at hfalse
              simp at hfalse
            · simp [hbX]
          · simp [hcX]
        · intro c' h hX
          rw [List.head?_cons, Option.some.injEq] at h
          rw [List.drop_zero, List.head?_cons, h, hX]

theorem matchCommaComma_start (l : List Char) (prev : Bool) (n : Nat)
    (h : matchCommaComma l prev = some (n + 1)) : l.head? = some ',' := by
  simp only [matchCommaComma] at h
  split at h
  · rfl
  · exact absurd h (by simp)

theorem matchCommaComma_force (rest : List Char) (prev : Bool)
    (h : rest.head? = some ',') :
    ∃ n, matchCommaComma (',' :: rest) prev = some (n + 1) := by
  match rest with
  | [] => simp at h
  | c :: r2 =>
    rw [List.head?_cons, Option.some.injEq] at h
    subst h
    refine ⟨1 + (r2.takeWhile (· = ',')).length, ?_⟩
    simp only [matchCommaComma, List.takeWhile_cons,
      (by decide : isPySpace ',' = false), List.dropWhile_cons]
    simp only [Bool.false_eq_true, if_false, List.length_nil]
    show some _ = some _
    rw [Option.some.injEq]
    omega

theorem matchCommaComma_greedy (l : List Char) (prev : Bool) (n : Nat)
    (h : matchCommaComma l prev = some n) :
    ∀ c', (l.drop n).head? = some c' → c' ≠ ',' := by
  intro c' hc'
  simp only [matchCommaComma] at h
  split at h
  · next r =>
    split at h
    · next r2 heq =>
      rw [Option.some.injEq] at h
      subst h
      rw [show 1 + (r.takeWhile isPySpace).length + 1 +
          (r2.takeWhile (· = ',')).length =
          ((r.takeWhile isPySpace).length +
            ((r2.takeWhile (· = ',')).length + 1)) + 1 by omega] at hc'
      rw [List.drop_succ_cons, ← List.drop_drop, drop_length_takeWhile,
        heq, List.drop_succ_cons, drop_length_takeWhile] at hc'
      have := dropWhile_head?_false (fun c => c = ',') r2 c' hc'
      simpa using this
    · exact absurd h (by simp)
  · exact absurd h (by simp)

theorem matchDotRun_start (l : List Char) (prev : Bool) (n : Nat)
    (h : matchDotRun l prev = some (n + 1)) : l.head? = some '.' := by
  simp only [matchDotRun] at h
  split at h
  · rfl
  · exact absurd h (by simp)

theorem matchDotRun_force (rest : List Char) (prev : Bool)
    (h : rest.head? = some '.') :
    ∃ n, matchDotRun ('.' :: rest) prev = some (n + 1) := by
  match rest with
  | [] => simp at h
  | c :: r2 =>
    rw [List.head?_cons, Option.some.injEq] at h
    subst h
    refine ⟨1 + (r2.takeWhile (· = '.')).length, ?_⟩
    simp only [matchDotRun, List.takeWhile_cons]
    simp
    omega

theorem matchDotRun_greedy (l : List Char) (prev : Bool) (n : Nat)
    (h : matchDotRun l prev = some n) :
    ∀ c', (l.drop n).head? = some c' → c' ≠ '.' := by
  intro c' hc'
  simp only [matchDotRun] at h
  split at h
  · next r =>
    split at h
    · exact absurd h (by simp)
    · rw [Option.some.injEq] at h
      subst h
      rw [show 1 + (r.takeWhile (· = '.')).length =
        (r.takeWhile (· = '.')).length + 1 by omega] at hc'
      rw [List.drop_succ_cons, drop_length_takeWhile] at hc'
      have := dropWhile_head?_false (fun c => c = '.') r c' hc'
      simpa using this
  · exact absurd h (by simp)

theorem collapseWsAux_true_head (l : List Char) :
    ∀ c', (collapseWsAux true l).head? = some c' → isPySpace c' = false := by
  induction l with
  | nil => intro c' h; simp [collapseWsAux] at h
  | cons c rest ih =>
    intro c' h
    by_cases hc : isPySpace c
    · rw [show collapseWsAux true (c :: rest) =
        if isPySpace c then collapseWsAux true rest
        else c :: collapseWsAux false rest from rfl, if_pos hc] at h
      exact ih c' h
    · rw [show collapseWsAux true (c :: rest) =
        if isPySpace c then collapseWsAux true rest
        else c :: collapseWsAux false rest from rfl, if_neg hc,
        List.head?_cons, Option.some.injEq] at h
      rw [← h]
      exact Bool.not_eq_true _ |>.mp hc

theorem collapseWsAux_false_head (l : List Char) :
    ∀ c', (collapseWsAux false l).head? = some c' →
      c' = ' ' ∨ l.head? = some c' := by
  intro c' h
  cases l with
  | nil => simp [collapseWsAux] at h
  | cons c rest =>
    by_cases hc : isPySpace c
    · rw [show collapseWsAux false (c :: rest) =
        if isPySpace c then ' ' :: collapseWsAux true rest
        else c :: collapseWsAux false rest from rfl, if_pos hc,
        List.head?_cons, Option.some.injEq] at h
      exact Or.inl h.symm
    · rw [show collapseWsAux false (c :: rest) =
        if isPySpace c then ' ' :: collapseWsAux true rest
        else c :: collapseWsAux false rest from rfl, if_neg hc] at h
      exact Or.inr h

theorem collapseWs_all_single :
    ∀ (l : List Char) (mode : Bool),
      (collapseWsAux mode l).all (fun c => !isPySpace c || c = ' ') = true := by
  intro l
  induction l with
  | nil => intro mode; cases mode <;> rfl
  | cons c rest ih =>
    intro mode
    by_cases hc : isPySpace c
    · cases mode
      · rw [show collapseWsAux false (c :: rest) =
          if isPySpace c then ' ' :: collapseWsAux true rest
          else c :: collapseWsAux false rest from rfl, if_pos hc]
        simp only [List.all_cons, ih true, Bool.and_true]
        decide
      · rw [show collapseWsAux true (c :: rest) =
          if isPySpace c then collapseWsAux true rest
          else c :: collapseWsAux false rest from rfl, if_pos hc]
        exact ih true
    · cases mode
      · rw [show collapseWsAux false (c :: rest) =
          if isPySpace c then ' ' :: collapseWsAux true rest
          else c :: collapseWsAux false rest from rfl, if_neg hc]
        simp only [List.all_cons, ih false, Bool.and_true, hc]
        simp [hc]
      · rw [show collapseWsAux true (c :: rest) =
          if isPySpace c then collapseWsAux true rest
          else c :: collapseWsAux false rest from rfl, if_neg hc]
        simp only [List.all_cons, ih false, Bool.and_true]
        simp [hc]

theorem collapseWs_noAdjWs :
    ∀ (l : List Char) (mode : Bool),
      adjPair isWsPair (collapseWsAux mode l) = false := by
  intro l
  induction l with
  | nil => intro mode; cases mode <;> rfl
  | cons c rest ih =>
    intro mode
    by_cases hc : isPySpace c
    · cases mode
      · rw [show collapseWsAux false (c :: rest) =
          if isPySpace c then ' ' :: collapseWsAux true rest
          else c :: collapseWsAux false rest from rfl, if_pos hc]
        refine (adjPair_cons_eq_false _ ' ' _).mpr ⟨?_, ih true⟩
        intro b hb
        have := collapseWsAux_true_head rest b hb
        simp [isWsPair, this]
      · rw [show collapseWsAux true (c :: rest) =
          if isPySpace c then collapseWsAux true rest
          else c :: collapseWsAux false rest from rfl, if_pos hc]
        exact ih true
    · cases mode <;>
        [rw [show collapseWsAux false (c :: rest) =
          if isPySpace c then ' ' :: collapseWsAux true rest
          else c :: collapseWsAux false rest from rfl, if_neg hc];
         rw [show collapseWsAux true (c :: rest) =
          if isPySpace c then collapseWsAux true rest
          else c :: collapseWsAux false rest from rfl, if_neg hc]] <;>
      · refine (adjPair_cons_eq_false _ c _).mpr ⟨?_, ih false⟩
        intro b _
        simp [isWsPair, hc]

theorem collapseWs_pres_noAdj (X : Char) (hX : (' ' : Char) ≠ X) :
    ∀ (l : List Char) (mode : Bool),
      adjPair (fun a b => a = X && b = X) l = false →
      adjPair (fun a b => a = X && b = X) (collapseWsAux mode l) = false := by
  intro l
  induction l with
  | nil => intro mode _; cases mode <;> rfl
  | cons c rest ih =>
    intro mode hadj
    rcases (adjPair_cons_eq_false _ c rest).mp hadj with ⟨hhd, hrest⟩
    by_cases hc : isPySpace c
    · cases mode
      · rw [show collapseWsAux false (c :: rest) =
          if isPySpace c then ' ' :: collapseWsAux true rest
          else c :: collapseWsAux false rest from rfl, if_pos hc]
        refine (adjPair_cons_eq_false _ ' ' _).mpr ⟨?_, ih true hrest⟩
        intro b _
        simp [show decide (' ' = X) = false by simp [hX]]
      · rw [show collapseWsAux true (c :: rest) =
          if isPySpace c then collapseWsAux true rest
          else c :: collapseWsAux false rest from rfl, if_pos hc]
        exact ih true hrest
    · cases mode <;>
        [rw [show collapseWsAux false (c :: rest) =
          if isPySpace c then ' ' :: collapseWsAux true rest
          else c :: collapseWsAux false rest from rfl, if_neg hc];
         rw [show collapseWsAux true (c :: rest) =
          if isPySpace c then collapseWsAux true rest
          else c :: collapseWsAux false rest from rfl, if_neg hc]] <;>
      · refine (adjPair_cons_eq_false _ c _).mpr ⟨?_, ih false hrest⟩
        intro b hb
        rcases collapseWsAux_false_head rest b hb with hb' | hb'
        · subst hb'
          simp [show decide (' ' = X) = false by simp [hX]]
        · by_cases hcX : c = X
          · have := hhd b hb'
            simpa [hcX] using this
          · simp [hcX]

theorem isSentPunct_not_alpha (c : Char) (h : isSentPunct c = true) :
    c.isAlpha = false := by
  have : (c = '.' ∨ c = '!') ∨ c = '?' := by
    simpa [isSentPunct] using h
  rcases this with (rfl | rfl) | rfl <;> decide

theorem isSentPunct_not_upper (c : Char) (h : isSentPunct c = true) :
    c.isUpper = false := by
  have : (c = '.' ∨ c = '!') ∨ c = '?' := by
    simpa [isSentPunct] using h
  rcases this with (rfl | rfl) | rfl <;> decide

theorem isSentPunct_not_ws (c : Char) (h : isSentPunct c = true) :
    isPySpace c = false := by
  have : (c = '.' ∨ c = '!') ∨ c = '?' := by
    simpa [isSentPunct] using h
  rcases this with (rfl | rfl) | rfl <;> decide

theorem ws_not_sentPunct (c : Char) (h : isPySpace c = true) :
    isSentPunct c = false := by
  by_contra hc
  rw [Bool.not_eq_false] at hc
  rw [isSentPunct_not_ws c hc] at h
  cases h

theorem capSentStartChar_not_sentPunct_of_alpha (c : Char)
    (h : c.isAlpha = true) : isSentPunct (capSentStartChar c) = false := by
  unfold capSentStartChar
  rw [if_pos h]
  by_contra hc
  rw [Bool.not_eq_false] at hc
  have h1 := isSentPunct_not_upper _ hc
  have h2 := upperC_isUpper c h
  rw [h1] at h2
  cases h2

theorem capSentStartChar_afterOk (c : Char) :
    (!(capSentStartChar c).isAlpha || (capSentStartChar c).isUpper) = true := by
  unfold capSentStartChar
  by_cases h : c.isAlpha = true
  · rw [if_pos h, upperC_isUpper c h, Bool.or_true]
  · rw [if_neg (by simpa using h)]
    simp only [Bool.not_eq_true] at h
    rw [h]
    rfl

theorem capSentAux_cons (mode : CapMode) (c : Char) (rest : List Char) :
    ∃ e mode', capSentAux mode (c :: rest) = e :: capSentAux mode' rest ∧
      (e = c ∨ e = capSentStartChar c) := by
  cases mode with
  | sepWs =>
    by_cases h1 : isPySpace c = true
    · exact ⟨c, .sepWs, by rw [show capSentAux .sepWs (c :: rest) =
        if isPySpace c then c :: capSentAux .sepWs rest
        else if isSentPunct c && (rest.head?.map isPySpace).getD false then
          c :: capSentAux .sepWs rest
        else capSentStartChar c :: capSentAux .piece rest from rfl,
        if_pos h1], Or.inl rfl⟩
    · by_cases h2 : (isSentPunct c && (rest.head?.map isPySpace).getD false) = true
      · exact ⟨c, .sepWs, by rw [show capSentAux .sepWs (c :: rest) =
          if isPySpace c then c :: capSentAux .sepWs rest
          else if isSentPunct c && (rest.head?.map isPySpace).getD false then
            c :: capSentAux .sepWs rest
          else capSentStartChar c :: capSentAux .piece rest from rfl,
          if_neg h1, if_pos h2], Or.inl rfl⟩
      · exact ⟨capSentStartChar c, .piece, by
          rw [show capSentAux .sepWs (c :: rest) =
          if isPySpace c then c :: capSentAux .sepWs rest
          else if isSentPunct c && (rest.head?.map isPySpace).getD false then
            c :: capSentAux .sepWs rest
          else capSentStartChar c :: capSentAux .piece rest from rfl,
          if_neg h1, if_neg h2], Or.inr rfl⟩
  | start =>
    by_cases h2 : (isSentPunct c && (rest.head?.map isPySpace).getD false) = true
    · exact ⟨c, .sepWs, by rw [show capSentAux .start (c :: rest) =
        if isSentPunct c && (rest.head?.map isPySpace).getD false then
          c :: capSentAux .sepWs rest
        else capSentStartChar c :: capSentAux .piece rest from rfl,
        if_pos h2], Or.inl rfl⟩
    · exact ⟨capSentStartChar c, .piece, by
        rw [show capSentAux .start (c :: rest) =
        if isSentPunct c && (rest.head?.map isPySpace).getD false then
          c :: capSentAux .sepWs rest
        else capSentStartChar c :: capSentAux .piece rest from rfl,
        if_neg h2], Or.inr rfl⟩
  | piece =>
    by_cases h2 : (isSentPunct c && (rest.head?.map isPySpace).getD false) = true
    · exact ⟨c, .sepWs, by rw [show capSentAux .piece (c :: rest) =
        if isSentPunct c && (rest.head?.map isPySpace).getD false then
          c :: capSentAux .sepWs rest
        else c :: capSentAux .piece rest from rfl, if_pos h2], Or.inl rfl⟩
    · exact ⟨c, .piece, by rw [show capSentAux .piece (c :: rest) =
        if isSentPunct c && (rest.head?.map isPySpace).getD false then
          c :: capSentAux .sepWs rest
        else c :: capSentAux .piece rest from rfl, if_neg h2], Or.inl rfl⟩

theorem capSentAux_head (mode : CapMode) (l : List Char) (c' : Char)
    (h : (capSentAux mode l).head? = some c') :
    ∃ c0 rest0, l = c0 :: rest0 ∧ (c' = c0 ∨ c' = capSentStartChar c0) := by
  match l with
  | [] => cases mode <;> simp [capSentAux] at h
  | c :: rest =>
    obtain ⟨e, mode', heq, he⟩ := capSentAux_cons mode c rest
    rw [heq, List.head?_cons, Option.some.injEq] at h
    exact ⟨c, rest, rfl, h ▸ he⟩

theorem capSent_pres_adj (p : Char → Char → Bool)
    (hp : ∀ c d e f, (e = c ∨ e = capSentStartChar c) →
      (f = d ∨ f = capSentStartChar d) → p e f = true → p c d = true) :
    ∀ (l : List Char) (mode : CapMode), adjPair p l = false →
      adjPair p (capSentAux mode l) = false := by
  intro l
  induction l with
  | nil => intro mode _; cases mode <;> rfl
  | cons c rest ih =>
    intro mode hadj
    rcases (adjPair_cons_eq_false _ c rest).mp hadj with ⟨hhd, hrest⟩
    obtain ⟨e, mode', heq, he⟩ := capSentAux_cons mode c rest
    rw [heq]
    refine (adjPair_cons_eq_false _ e _).mpr ⟨?_, ih mode' hrest⟩
    intro b hb
    obtain ⟨c0, rest0, hr0, hb0⟩ := capSentAux_head mode' rest b hb
    by_contra hbad
    rw [Bool.not_eq_false] at hbad
    have := hp c c0 e b he hb0 hbad
    have h2 := hhd c0 (by rw [hr0]; rfl)
    rw [this] at h2
    cases h2

theorem capSent_pres_allSingle :
    ∀ (l : List Char) (mode : CapMode),
      l.all (fun c => !isPySpace c || c = ' ') = true →
      (capSentAux mode l).all (fun c => !isPySpace c || c = ' ') = true := by
  intro l
  induction l with
  | nil => intro mode _; cases mode <;> rfl
  | cons c rest ih =>
    intro mode hall
    rw [List.all_cons, Bool.and_eq_true] at hall
    obtain ⟨e, mode', heq, he⟩ := capSentAux_cons mode c rest
    rw [heq, List.all_cons, Bool.and_eq_true]
    refine ⟨?_, ih mode' hall.2⟩
    rcases he with rfl | rfl
    · exact hall.1
    · by_cases ha : c.isAlpha = true
      · unfold capSentStartChar
        rw [if_pos ha]
        rw [isUpper_not_pySpace _ (upperC_isUpper c ha)]
        rfl
      · unfold capSentStartChar
        rw [if_neg (by simpa using ha)]
        exact hall.1

theorem afterWsOk_cons_ws (c : Char) (t : List Char)
    (hc : isPySpace c = true) : afterWsOk (c :: t) = afterWsOk t := by
  unfold afterWsOk
  rw [List.dropWhile_cons, if_pos hc]

theorem afterWsOk_cons_not_ws (c : Char) (t : List Char)
    (hc : isPySpace c = false) :
    afterWsOk (c :: t) = (!c.isAlpha || c.isUpper) := by
  unfold afterWsOk
  rw [List.dropWhile_cons, if_neg (by simp [hc])]

theorem boundaryLetterOk_of_afterWsOk (t : List Char)
    (h : afterWsOk t = true) : boundaryLetterOk t = true := by
  unfold boundaryLetterOk
  split
  · rfl
  · exact h

theorem boundaryLetterOk_of_head_not_ws (t : List Char)
    (h : ∀ b, t.head? = some b → isPySpace b = false) :
    boundaryLetterOk t = true := by
  unfold boundaryLetterOk
  cases t with
  | nil => rfl
  | cons b bs =>
    have hb : isPySpace b = false := h b rfl
    have htw : List.takeWhile isPySpace (b :: bs) = [] := by
      simp [List.takeWhile_cons, hb]
    rw [htw]
    rfl

theorem afterWsOk_capSent_sepWs (l : List Char) :
    afterWsOk (capSentAux .sepWs l) = true := by
  induction l with
  | nil => rfl
  | cons c rest ih =>
    by_cases h1 : isPySpace c = true
    · rw [show capSentAux .sepWs (c :: rest) =
        if isPySpace c then c :: capSentAux .sepWs rest
        else if isSentPunct c && (rest.head?.map isPySpace).getD false then
          c :: capSentAux .sepWs rest
        else capSentStartChar c :: capSentAux .piece rest from rfl, if_pos h1,
        afterWsOk_cons_ws _ _ h1]
      exact ih
    · by_cases h2 : (isSentPunct c && (rest.head?.map isPySpace).getD false) = true
      · rw [show capSentAux .sepWs (c :: rest) =
          if isPySpace c then c :: capSentAux .sepWs rest
          else if isSentPunct c && (rest.head?.map isPySpace).getD false then
            c :: capSentAux .sepWs rest
          else capSentStartChar c :: capSentAux .piece rest from rfl,
          if_neg h1, if_pos h2,
          afterWsOk_cons_not_ws _ _ (by simpa using h1)]
        rw [Bool.and_eq_true] at h2
        rw [isSentPunct_not_alpha c h2.1]
        rfl
      · rw [show capSentAux .sepWs (c :: rest) =
          if isPySpace c then c :: capSentAux .sepWs rest
          else if isSentPunct c && (rest.head?.map isPySpace).getD false then
            c :: capSentAux .sepWs rest
          else capSentStartChar c :: capSentAux .piece rest from rfl,
          if_neg h1, if_neg h2,
          afterWsOk_cons_not_ws _ _
            (by rw [capSentStartChar_pySpace]; simpa using h1)]
        exact capSentStartChar_afterOk c

theorem capSentAux_head_not_ws (mode : CapMode) (rest : List Char)
    (hrest : ∀ b, rest.head? = some b → isPySpace b = false) :
    ∀ b, (capSentAux mode rest).head? = some b → isPySpace b = false := by
  intro b hb
  obtain ⟨c0, rest0, hr0, hb0⟩ := capSentAux_head mode rest b hb
  have hc0 : isPySpace c0 = false := hrest c0 (by rw [hr0]; rfl)
  rcases hb0 with rfl | rfl
  · exact hc0
  · rw [capSentStartChar_pySpace]
    exact hc0

theorem capSent_boundariesUpper :
    ∀ (l : List Char) (mode : CapMode),
      boundariesUpper (capSentAux mode l) = true := by
  intro l
  induction l with
  | nil => intro mode; cases mode <;> rfl
  | cons c rest ih =>
    intro mode
    have hsep : ∀ (h2 : (isSentPunct c &&
        (rest.head?.map isPySpace).getD false) = true),
        boundariesUpper (c :: capSentAux .sepWs rest) = true := by
      intro h2
      rw [Bool.and_eq_true] at h2
      show ((if isSentPunct c then boundaryLetterOk (capSentAux .sepWs rest)
        else true) && boundariesUpper (capSentAux .sepWs rest)) = true
      rw [if_pos h2.1,
        boundaryLetterOk_of_afterWsOk _ (afterWsOk_capSent_sepWs rest),
        ih .sepWs]
      rfl
    have hplain : ∀ (e : Char),
        (e = c ∨ e = capSentStartChar c) →
        (isSentPunct c && (rest.head?.map isPySpace).getD false) = false →
        boundariesUpper (e :: capSentAux .piece rest) = true := by
      intro e he h2
      show ((if isSentPunct e then boundaryLetterOk (capSentAux .piece rest)
        else true) && boundariesUpper (capSentAux .piece rest)) = true
      rw [ih .piece, Bool.and_true]
      by_cases hp : isSentPunct e = true
      · rw [if_pos hp]
        have hpc : isSentPunct c = true := by
          rcases he with rfl | rfl
          · exact hp
          · by_cases ha : c.isAlpha = true
            · rw [capSentStartChar_not_sentPunct_of_alpha c ha] at hp
              cases hp
            · unfold capSentStartChar at hp
              rw [if_neg (by simpa using ha)] at hp
              exact hp
        have hnext : (rest.head?.map isPySpace).getD false = false := by
          rw [Bool.and_eq_false_iff] at h2
          rcases h2 with h2 | h2
          · rw [hpc] at h2; cases h2
          · exact h2
        apply boundaryLetterOk_of_head_not_ws
        apply capSentAux_head_not_ws
        intro b hb
        cases rest with
        | nil => simp at hb
        | cons r0 rs =>
          rw [List.head?_cons, Option.some.injEq] at hb
          subst hb
          simpa using hnext
      · rw [if_neg hp]
    cases mode with
    | sepWs =>
      by_cases h1 : isPySpace c = true
      · rw [show capSentAux .sepWs (c :: rest) =
          if isPySpace c then c :: capSentAux .sepWs rest
          else if isSentPunct c && (rest.head?.map isPySpace).getD false then
            c :: capSentAux .sepWs rest
          else capSentStartChar c :: capSentAux .piece rest from rfl, if_pos h1]
        show ((if isSentPunct c then boundaryLetterOk (capSentAux .sepWs rest)
          else true) && boundariesUpper (capSentAux .sepWs rest)) = true
        rw [ws_not_sentPunct c h1]
        simp only [Bool.false_eq_true, if_false, Bool.true_and]
        exact ih .sepWs
      · by_cases h2 : (isSentPunct c && (rest.head?.map isPySpace).getD false) = true
        · rw [show capSentAux .sepWs (c :: rest) =
            if isPySpace c then c :: capSentAux .sepWs rest
            else if isSentPunct c && (rest.head?.map isPySpace).getD false then
              c :: capSentAux .sepWs rest
            else capSentStartChar c :: capSentAux .piece rest from rfl,
            if_neg h1, if_pos h2]
          exact hsep h2
        · rw [show capSentAux .sepWs (c :: rest) =
            if isPySpace c then c :: capSentAux .sepWs rest
            else if isSentPunct c && (rest.head?.map isPySpace).getD false then
              c :: capSentAux .sepWs rest
            else capSentStartChar c :: capSentAux .piece rest from rfl,
            if_neg h1, if_neg h2]
          exact hplain _ (Or.inr rfl) (by simpa using h2)
    | start =>
      by_cases h2 : (isSentPunct c && (rest.head?.map isPySpace).getD false) = true
      · rw [show capSentAux .start (c :: rest) =
          if isSentPunct c && (rest.head?.map isPySpace).getD false then
            c :: capSentAux .sepWs rest
          else capSentStartChar c :: capSentAux .piece rest from rfl, if_pos h2]
        exact hsep h2
      · rw [show capSentAux .start (c :: rest) =
          if isSentPunct c && (rest.head?.map isPySpace).getD false then
            c :: capSentAux .sepWs rest
          else capSentStartChar c :: capSentAux .piece rest from rfl, if_neg h2]
        exact hplain _ (Or.inr rfl) (by simpa using h2)
    | piece =>
      by_cases h2 : (isSentPunct c && (rest.head?.map isPySpace).getD false) = true
      · rw [show capSentAux .piece (c :: rest) =
          if isSentPunct c && (rest.head?.map isPySpace).getD false then
            c :: capSentAux .sepWs rest
          else c :: capSentAux .piece rest from rfl, if_pos h2]
        exact hsep h2
      · rw [show capSentAux .piece (c :: rest) =
          if isSentPunct c && (rest.head?.map isPySpace).getD false then
            c :: capSentAux .sepWs rest
          else c :: capSentAux .piece rest from rfl, if_neg h2]
        exact hplain _ (Or.inl rfl) (by simpa using h2)

theorem lower_isAlpha (c : Char) (h : c.isLower = true) : c.isAlpha = true := by
  rw [isLower_iff] at h
  rw [isAlpha_iff]
  exact Or.inr h

theorem upper_not_sentPunct (c : Char) (h : c.isUpper = true) :
    isSentPunct c = false := by
  by_contra hc
  rw [Bool.not_eq_false] at hc
  rw [isSentPunct_not_upper c hc] at h
  cases h

theorem capFirstLower_pres_adj (p : Char → Char → Bool)
    (hp : ∀ c d, c.isLower = true → p (upperC c) d = true → p c d = true) :
    ∀ l : List Char, adjPair p l = false →
      adjPair p (capFirstLower l) = false := by
  intro l h
  match l with
  | [] => exact h
  | c :: cs =>
    rw [show capFirstLower (c :: cs) =
      if c.isLower then upperC c :: cs else c :: cs from rfl]
    by_cases hlow : c.isLower = true
    · rw [if_pos hlow]
      rcases (adjPair_cons_eq_false p c cs).mp h with ⟨hhd, htl⟩
      refine (adjPair_cons_eq_false p (upperC c) cs).mpr ⟨?_, htl⟩
      intro b hb
      by_contra hbad
      rw [Bool.not_eq_false] at hbad
      have := hp c b hlow hbad
      rw [hhd b hb] at this
      cases this
    · rw [if_neg hlow]
      exact h

theorem capFirstLower_all (q : Char → Bool)
    (hq : ∀ c, c.isLower = true → q (upperC c) = true) :
    ∀ l : List Char, l.all q = true → (capFirstLower l).all q = true := by
  intro l h
  match l with
  | [] => exact h
  | c :: cs =>
    rw [show capFirstLower (c :: cs) =
      if c.isLower then upperC c :: cs else c :: cs from rfl]
    rw [List.all_cons, Bool.and_eq_true] at h
    by_cases hlow : c.isLower = true
    · rw [if_pos hlow, List.all_cons, Bool.and_eq_true]
      exact ⟨hq c hlow, h.2⟩
    · rw [if_neg hlow, List.all_cons, Bool.and_eq_true]
      exact h

theorem boundariesUpper_cons (c : Char) (rest : List Char) :
    boundariesUpper (c :: rest) =
      ((if isSentPunct c then boundaryLetterOk rest else true) &&
        boundariesUpper rest) := rfl

theorem capFirstLower_boundariesUpper (l : List Char)
    (h : boundariesUpper l = true) :
    boundariesUpper (capFirstLower l) = true := by
  match l with
  | [] => exact h
  | c :: cs =>
    rw [show capFirstLower (c :: cs) =
      if c.isLower then upperC c :: cs else c :: cs from rfl]
    by_cases hlow : c.isLower = true
    · rw [if_pos hlow, boundariesUpper_cons,
        if_neg (by rw [upper_not_sentPunct _
          (upperC_isUpper c (lower_isAlpha c hlow))]; simp)]
      rw [boundariesUpper_cons, Bool.and_eq_true] at h
      rw [h.2]
      rfl
    · rw [if_neg hlow]
      exact h

theorem boundariesUpper_dropWhile (q : Char → Bool) :
    ∀ l : List Char, boundariesUpper l = true →
      boundariesUpper (l.dropWhile q) = true := by
  intro l
  induction l with
  | nil => intro h; exact h
  | cons c rest ih =>
    intro h
    rw [List.dropWhile_cons]
    split
    · apply ih
      rw [boundariesUpper_cons, Bool.and_eq_true] at h
      exact h.2
    · exact h

theorem afterWsOk_append_ws (ws : List Char)
    (_hws : ws.all isPySpace = true) :
    ∀ t : List Char, afterWsOk (t ++ ws) = true → afterWsOk t = true := by
  intro t
  induction t with
  | nil => intro _; rfl
  | cons d rest ih =>
    intro h
    by_cases hd : isPySpace d = true
    · rw [afterWsOk_cons_ws d _ hd]
      rw [List.cons_append, afterWsOk_cons_ws d _ hd] at h
      exact ih h
    · rw [afterWsOk_cons_not_ws d _ (by simpa using hd)]
      rw [List.cons_append, afterWsOk_cons_not_ws d _ (by simpa using hd)] at h
      exact h

theorem boundaryLetterOk_cons_ws (d : Char) (t : List Char)
    (hd : isPySpace d = true) :
    boundaryLetterOk (d :: t) = afterWsOk t := by
  unfold boundaryLetterOk
  rw [List.takeWhile_cons, if_pos hd, if_neg (by simp),
    afterWsOk_cons_ws d t hd]

theorem boundaryLetterOk_cons_not_ws (d : Char) (t : List Char)
    (hd : isPySpace d = false) :
    boundaryLetterOk (d :: t) = true := by
  unfold boundaryLetterOk
  have htw : List.takeWhile isPySpace (d :: t) = [] := by
    simp [List.takeWhile_cons, hd]
  rw [htw]
  rfl

theorem boundaryLetterOk_append_ws (ws : List Char)
    (hws : ws.all isPySpace = true) (t : List Char)
    (h : boundaryLetterOk (t ++ ws) = true) : boundaryLetterOk t = true := by
  cases t with
  | nil => rfl
  | cons d rest =>
    by_cases hd : isPySpace d = true
    · rw [boundaryLetterOk_cons_ws d rest hd]
      rw [List.cons_append, boundaryLetterOk_cons_ws d _ hd] at h
      exact afterWsOk_append_ws ws hws rest h
    · exact boundaryLetterOk_cons_not_ws d rest (by simpa using hd)

theorem boundariesUpper_append_ws (ws : List Char)
    (hws : ws.all isPySpace = true) :
    ∀ t : List Char, boundariesUpper (t ++ ws) = true →
      boundariesUpper t = true := by
  intro t
  induction t with
  | nil => intro _; rfl
  | cons c rest ih =>
    intro h
    rw [List.cons_append, boundariesUpper_cons, Bool.and_eq_true] at h
    rw [boundariesUpper_cons, Bool.and_eq_true]
    refine ⟨?_, ih h.2⟩
    have h1 := h.1
    by_cases hp : isSentPunct c = true
    · rw [if_pos hp] at h1 ⊢
      exact boundaryLetterOk_append_ws ws hws rest h1
    · rw [if_neg hp]

theorem pyStripWs_decomp (l : List Char) :
    ∃ ws : List Char, ws.all isPySpace = true ∧
      l.dropWhile isPySpace = pyStripWs l ++ ws := by
  refine ⟨((l.dropWhile isPySpace).reverse.takeWhile isPySpace).reverse,
    ?_, ?_⟩
  · rw [List.all_eq_true]
    intro x hx
    rw [List.mem_reverse] at hx
    exact List.mem_takeWhile_imp hx
  · show l.dropWhile isPySpace =
      ((l.dropWhile isPySpace).reverse.dropWhile isPySpace).reverse ++
        ((l.dropWhile isPySpace).reverse.takeWhile isPySpace).reverse
    have hsplit :
        List.takeWhile isPySpace (l.dropWhile isPySpace).reverse ++
          List.dropWhile isPySpace (l.dropWhile isPySpace).reverse =
          (l.dropWhile isPySpace).reverse := by
      simp [List.takeWhile_append_dropWhile]
    conv_lhs => rw [← List.reverse_reverse (l.dropWhile isPySpace), ← hsplit]
    rw [List.reverse_append]

theorem adjPair_pyStripWs (p : Char → Char → Bool) (l : List Char)
    (h : adjPair p l = false) : adjPair p (pyStripWs l) = false := by
  obtain ⟨ws, _, hdec⟩ := pyStripWs_decomp l
  have h1 : adjPair p (l.dropWhile isPySpace) = false :=
    adjPair_dropWhile p isPySpace l h
  rw [hdec] at h1
  exact adjPair_append_left p _ ws h1

theorem all_pyStripWs (q : Char → Bool) (l : List Char)
    (h : l.all q = true) : (pyStripWs l).all q = true := by
  obtain ⟨ws, _, hdec⟩ := pyStripWs_decomp l
  have h1 : (l.dropWhile isPySpace).all q = true := by
    rw [List.all_eq_true] at h ⊢
    intro x hx
    exact h x ((List.dropWhile_sublist _).subset hx)
  rw [hdec, List.all_append, Bool.and_eq_true] at h1
  exact h1.1

theorem boundariesUpper_pyStripWs (l : List Char)
    (h : boundariesUpper l = true) :
    boundariesUpper (pyStripWs l) = true := by
  obtain ⟨ws, hws, hdec⟩ := pyStripWs_decomp l
  have h1 := boundariesUpper_dropWhile isPySpace l h
  rw [hdec] at h1
  exact boundariesUpper_append_ws ws hws _ h1

theorem cleanup_tail_post (t11 : List Char) :
    adjPair isCommaPair (pyStripWs (capFirstLower (capSentences (collapseWs
        (subMatches matchDotRun (litL ".") 0 false
          (subMatches matchCommaComma (litL ",") 0 false t11)))))) = false ∧
    adjPair isDotPair (pyStripWs (capFirstLower (capSentences (collapseWs
        (subMatches matchDotRun (litL ".") 0 false
          (subMatches matchCommaComma (litL ",") 0 false t11)))))) = false ∧
    boundariesUpper (pyStripWs (capFirstLower (capSentences (collapseWs
        (subMatches matchDotRun (litL ".") 0 false
          (subMatches matchCommaComma (litL ",") 0 false t11)))))) = true ∧
    wsSingleSpaced (pyStripWs (capFirstLower (capSentences (collapseWs
        (subMatches matchDotRun (litL ".") 0 false
          (subMatches matchCommaComma (litL ",") 0 false t11)))))) = true := by
  rw [show (litL ",") = [','] from rfl, show (litL ".") = ['.'] from rfl]
  set t12 := subMatches matchCommaComma [','] 0 false t11 with ht12
  set t13 := subMatches matchDotRun ['.'] 0 false t12 with ht13
  set t14 := collapseWs t13 with ht14
  set t15 := capSentences t14 with ht15
  set t16 := capFirstLower t15 with ht16
  have h12c : adjPair (fun a b => a = ',' && b = ',') t12 = false :=
    (subMatches_single_noAdj ',' matchCommaComma matchCommaComma_greedy
      matchCommaComma_start matchCommaComma_force t11 0 false).1
  have h13d : adjPair (fun a b => a = '.' && b = '.') t13 = false :=
    (subMatches_single_noAdj '.' matchDotRun matchDotRun_greedy
      matchDotRun_start matchDotRun_force t12 0 false).1
  have h13c : adjPair (fun a b => a = ',' && b = ',') t13 = false :=
    (subMatches_single_pres ',' '.' (by decide) matchDotRun t12 0 false
      h12c).1
  have h14c : adjPair (fun a b => a = ',' && b = ',') t14 = false :=
    collapseWs_pres_noAdj ',' (by decide) t13 false h13c
  have h14d : adjPair (fun a b => a = '.' && b = '.') t14 = false :=
    collapseWs_pres_noAdj '.' (by decide) t13 false h13d
  have h14ws : adjPair isWsPair t14 = false := collapseWs_noAdjWs t13 false
  have h14all : t14.all (fun c => !isPySpace c || c = ' ') = true :=
    collapseWs_all_single t13 false
  have hpc : ∀ c d e f, (e = c ∨ e = capSentStartChar c) →
      (f = d ∨ f = capSentStartChar d) →
      (fun a b => a = ',' && b = ',') e f = true →
      (fun a b => a = ',' && b = ',') c d = true := by
    intro c d e f he hf h
    simp only [Bool.and_eq_true, decide_eq_true_eq] at h ⊢
    refine ⟨?_, ?_⟩
    · rcases he with rfl | rfl
      · exact h.1
      · exact capSentStartChar_eq_comma c h.1
    · rcases hf with rfl | rfl
      · exact h.2
      · exact capSentStartChar_eq_comma d h.2
  have hpd : ∀ c d e f, (e = c ∨ e = capSentStartChar c) →
      (f = d ∨ f = capSentStartChar d) →
      (fun a b => a = '.' && b = '.') e f = true →
      (fun a b => a = '.' && b = '.') c d = true := by
    intro c d e f he hf h
    simp only [Bool.and_eq_true, decide_eq_true_eq] at h ⊢
    refine ⟨?_, ?_⟩
    · rcases he with rfl | rfl
      · exact h.1
      · exact capSentStartChar_eq_dot c h.1
    · rcases hf with rfl | rfl
      · exact h.2
      · exact capSentStartChar_eq_dot d h.2
  have hpw : ∀ c d e f, (e = c ∨ e = capSentStartChar c) →
      (f = d ∨ f = capSentStartChar d) →
      isWsPair e f = true → isWsPair c d = true := by
    intro c d e f he hf h
    simp only [isWsPair, Bool.and_eq_true] at h ⊢
    refine ⟨?_, ?_⟩
    · rcases he with rfl | rfl
      · exact h.1
      · rw [← capSentStartChar_pySpace c]
        exact h.1
    · rcases hf with rfl | rfl
      · exact h.2
      · rw [← capSentStartChar_pySpace d]
        exact h.2
  have h15c : adjPair (fun a b => a = ',' && b = ',') t15 = false := by
    rw [ht15]
    exact capSent_pres_adj _ hpc t14 .start h14c
  have h15d : adjPair (fun a b => a = '.' && b = '.') t15 = false := by
    rw [ht15]
    exact capSent_pres_adj _ hpd t14 .start h14d
  have h15ws : adjPair isWsPair t15 = false := by
    rw [ht15]
    exact capSent_pres_adj _ hpw t14 .start h14ws
  have h15all : t15.all (fun c => !isPySpace c || c = ' ') = true := by
    rw [ht15]
    exact capSent_pres_allSingle t14 .start h14all
  have h15up : boundariesUpper t15 = true := by
    rw [ht15]
    exact capSent_boundariesUpper t14 .start
  have hfc : ∀ c d, c.isLower = true →
      (fun a b => a = ',' && b = ',') (upperC c) d = true →
      (fun a b => a = ',' && b = ',') c d = true := by
    intro c d hlow h
    simp only [Bool.and_eq_true, decide_eq_true_eq] at h
    exact absurd h.1
      (isUpper_ne_comma _ (upperC_isUpper c (lower_isAlpha c hlow)))
  have hfd : ∀ c d, c.isLower = true →
      (fun a b => a = '.' && b = '.') (upperC c) d = true →
      (fun a b => a = '.' && b = '.') c d = true := by
    intro c d hlow h
    simp only [Bool.and_eq_true, decide_eq_true_eq] at h
    exact absurd h.1
      (isUpper_ne_dot _ (upperC_isUpper c (lower_isAlpha c hlow)))
  have hfw : ∀ c d, c.isLower = true →
      isWsPair (upperC c) d = true → isWsPair c d = true := by
    intro c d hlow h
    simp only [isWsPair, Bool.and_eq_true] at h
    rw [isUpper_not_pySpace _ (upperC_isUpper c (lower_isAlpha c hlow))] at h
    exact absurd h.1 (by simp)
  have h16c : adjPair (fun a b => a = ',' && b = ',') t16 = false :=
    capFirstLower_pres_adj _ hfc t15 h15c
  have h16d : adjPair (fun a b => a = '.' && b = '.') t16 = false :=
    capFirstLower_pres_adj _ hfd t15 h15d
  have h16ws : adjPair isWsPair t16 = false :=
    capFirstLower_pres_adj _ hfw t15 h15ws
  have h16all : t16.all (fun c => !isPySpace c || c = ' ') = true := by
    refine capFirstLower_all _ ?_ t15 h15all
    intro c hlow
    show (!isPySpace (upperC c) || decide (upperC c = ' ')) = true
    rw [isUpper_not_pySpace _ (upperC_isUpper c (lower_isAlpha c hlow))]
    rfl
  have h16up : boundariesUpper t16 = true :=
    capFirstLower_boundariesUpper t15 h15up
  refine ⟨adjPair_pyStripWs _ t16 h16c, adjPair_pyStripWs _ t16 h16d,
    boundariesUpper_pyStripWs t16 h16up, ?_⟩
  unfold wsSingleSpaced
  rw [all_pyStripWs _ t16 h16all, adjPair_pyStripWs _ t16 h16ws]
  rfl

theorem cleanup_post (l : List Char) :
    adjPair isCommaPair (intelligentCleanup l) = false ∧
    adjPair isDotPair (intelligentCleanup l) = false ∧
    boundariesUpper (intelligentCleanup l) = true ∧
    wsSingleSpaced (intelligentCleanup l) = true := by
  have hres : intelligentCleanup l =
      pyStripWs (capFirstLower (capSentences (collapseWs
        (subMatches matchDotRun (litL ".") 0 false
          (subMatches matchCommaComma (litL ",") 0 false
            (subMatches matchCommaDot (litL ".") 0 false
              (subMatches matchDotComma (litL ". ") 0 false
                (subMatches (matchResidual (litL "moreover")) [] 0 false
                  (subMatches (matchResidual (litL "furthermore")) [] 0 false
                    (subMatches (matchResidual (litL "subsequently")) [] 0
                      false
                      (fixMidCaps (subDoubleConn (restoreCompounds
                        (subDash (subSpacePunct
                          (collapseWs l)))))))))))))))) := rfl
  rw [hres]
  exact cleanup_tail_post _

theorem pyStripWs_ne_The (t : List Char) : pyStripWs t ≠ litL "The " := by
  intro he
  have hrev : (pyStripWs t).reverse =
      List.dropWhile isPySpace ((t.dropWhile isPySpace).reverse) := by
    simp [pyStripWs]
  rw [he] at hrev
  have hx : List.dropWhile isPySpace ((t.dropWhile isPySpace).reverse) =
      [' ', 'e', 'h', 'T'] :=
    hrev.symm.trans (by decide)
  have hhead := dropWhile_head?_false isPySpace
    ((t.dropWhile isPySpace).reverse) ' ' (by rw [hx]; rfl)
  exact absurd hhead (by decide)

theorem isPrefixL_The_shape (s : List Char)
    (h : isPrefixL (litL "The ") s = true) :
    s = 'T' :: 'h' :: 'e' :: ' ' :: s.drop 4 := by
  have hlit : litL "The " = ['T', 'h', 'e', ' '] := rfl
  rw [hlit] at h
  match s with
  | [] => simp [isPrefixL] at h
  | [a] => simp [isPrefixL] at h
  | [a, b] => simp [isPrefixL] at h
  | [a, b, c] => simp [isPrefixL] at h
  | a :: b :: c :: d :: rest =>
    simp only [isPrefixL, Bool.and_eq_true, decide_eq_true_eq] at h
    obtain ⟨ha, hb, hc, hd, -⟩ := h
    subst ha hb hc hd
    rfl

theorem mem_splitAdv_The_drop (l : List Char) (s : List Char)
    (hs : s ∈ splitSentencesAdvanced l)
    (hpre : isPrefixL (litL "The ") s = true) : s.drop 4 ≠ [] := by
  intro hdrop
  have hshape := isPrefixL_The_shape s hpre
  rw [hdrop] at hshape
  unfold splitSentencesAdvanced at hs
  split at hs
  · simp at hs
  · rw [List.mem_filter] at hs
    rcases List.mem_map.mp hs.1 with ⟨t, -, ht⟩
    exact pyStripWs_ne_The t (ht ▸ hshape)

theorem reduceTheAux_eq_spec :
    ∀ (ss : List (List Char))
      (_ : ∀ s ∈ ss, isPrefixL (litL "The ") s = true → s.drop 4 ≠ [])
      (r : ℕ),
    reduceTheAux (r % 3) ss = reduceTheSpec r ss := by
  intro ss
  induction ss with
  | nil => intro _ r; rfl
  | cons s rest ih =>
    intro hss r
    have hs := hss s (by simp)
    have hrest : ∀ s' ∈ rest, isPrefixL (litL "The ") s' = true → s'.drop 4 ≠ [] :=
      fun s' h' => hss s' (by simp [h'])
    by_cases hpre : isPrefixL (litL "The ") s = true
    · by_cases h3 : (r + 1) % 3 = 0
      · have hk : r % 3 + 1 > 2 := by omega
        have haux := ih hrest (r + 1)
        rw [h3] at haux
        simp only [reduceTheAux, reduceTheSpec, if_pos hpre, if_pos hk,
          if_pos h3]
        cases hd : s.drop 4 with
        | nil => exact absurd hd (hs hpre)
        | cons m ms =>
          show (upperC m :: ms) :: reduceTheAux 0 rest =
            capFirst (m :: ms) :: reduceTheSpec (r + 1) rest
          rw [haux]
          rfl
      · have hk : ¬(r % 3 + 1 > 2) := by omega
        have haux := ih hrest (r + 1)
        rw [show (r + 1) % 3 = r % 3 + 1 by omega] at haux
        simp only [reduceTheAux, reduceTheSpec, if_pos hpre, if_neg hk,
          if_neg h3]
        rw [haux]
    · have haux := ih hrest 0
      simp only [reduceTheAux, reduceTheSpec, if_neg hpre]
      rw [show (0 : ℕ) % 3 = 0 from rfl] at haux
      rw [haux]

theorem synStep_eq_spec (p : ℚ) (st : SynState) (w : List Char) :
    synStep p st w = synTokenSpec p st w := by
  cases hl : List.lookup (cleanWord w) synonymsDict with
  | none => simp only [synStep, synTokenSpec, PyRandom.next, hl]
  | some syns =>
    simp only [synStep, synTokenSpec, PyRandom.next, hl]
    by_cases hq : st.rng.seq st.rng.pos < p
    · by_cases hr : (last5 st.recently).contains (cleanWord w) = true
      · rw [if_pos hq, if_pos hr, if_neg (fun hc => hc.2 hr)]
      · have hgate : st.rng.seq st.rng.pos < p ∧
            ¬(last5 st.recently).contains (cleanWord w) = true := ⟨hq, hr⟩
        rw [if_pos hq, if_neg hr, if_pos hgate]
        cases w with
        | nil => rfl
        | cons c cs => rfl
    · rw [if_neg hq, if_neg (fun hc => hq hc.1)]

theorem synFold_eq_spec (p : ℚ) :
    ∀ (ws : List (List Char)) (st : SynState),
      synFold p st ws = synSpecFold p st ws := by
  intro ws
  induction ws with
  | nil => intro st; rfl
  | cons w rest ih =>
    intro st
    simp only [synFold, synSpecFold, synStep_eq_spec, ih]

/-- Claim C5 (amended): `replace_synonyms_contextual` tokenizes on
whitespace and maps each token as the claim describes — replaced exactly
when the punctuation-stripped lowercase key is in the synonym map, the
uniform draw is below `config.synonym_replacement`, and the key is not among
the last 5 entries of the recency buffer; on replacement the synonym's first
letter is capitalized iff the token's first character is uppercase and the
key is pushed onto the bounded size-50 recency buffer — the tokens being
re-joined with single spaces.  The punctuation clause is amended: what is
appended to the synonym is the subsequence of **all** the token's characters
drawn from `'.,!?;:'` (so leading punctuation migrates to the tail, and
bracket characters are dropped), not the token's trailing punctuation. -/
theorem claim_C5_amended (config : ModificationConfig) (fl : String)
    (st : SynState) (l : List Char) :
    replaceSynonymsContextual config fl st l =
      (joinSpace (synSpecFold config.synonym_replacement st (pySplit l)).1,
        (synSpecFold config.synonym_replacement st (pySplit l)).2) := by
  unfold replaceSynonymsContextual
  rw [synFold_eq_spec]

/-- Claim C5, counterexample: the clause "the token's trailing punctuation
is preserved exactly" fails.  The token `",analyze"` has empty trailing
punctuation, but after replacement (first draw 0 < synonym_replacement = 1,
choice draw 0 picks the top-scored synonym `"study"`) the output token is
`"study,"` — the *leading* comma has migrated to the tail. -/
theorem claim_C5_counterexample :
    (replaceSynonymsContextual ⟨0, 0, 0, 0, 1, 0, 1⟩ "neutral"
        ⟨⟨fun _ => 0, 0⟩, []⟩ (litL ",analyze")).1 = litL "study," ∧
    trailingPunct (litL ",analyze") = [] ∧
    trailingPunct (litL "study,") = [','] :=
  ⟨by decide, by decide, by decide⟩

/-- Claim C6, counterexample: the claim's consequence "the output never
contains three consecutive sentences all beginning with `The `" is false.
When the third consecutive `The `-sentence continues with another `"The "`
after the stripped prefix, the output still has three consecutive
`The `-sentences. -/
theorem claim_C6_counterexample :
    reduceTheRepetition (litL "The a x. The b x. The The c x.") =
      litL "The a x. The b x. The c x." ∧
    (splitSentencesAdvanced (litL "The a x. The b x. The c x.")).map
      (fun s => isPrefixL (litL "The ") s) = [true, true, true] :=
  ⟨by decide, by decide⟩

/-- Claim C6 (amended): `reduce_the_repetition` splits the text into
sentences and maps them as the claim describes — every sentence is left
unchanged except that, within each run of consecutive sentences beginning
with `"The "`, exactly every third such sentence has its leading `"The "`
stripped and its new first letter capitalized (the run counter resetting
after each strip) — the sentences being re-joined with single spaces.  The
claim's final consequence ("the output never contains three consecutive
sentences beginning with `The `") is dropped: it fails when a stripped
sentence itself begins with `"The "` (see the counterexample). -/
theorem claim_C6_amended (l : List Char) :
    reduceTheRepetition l = joinSpace (reduceTheSpec 0 (splitSentencesAdvanced l)) := by
  unfold reduceTheRepetition
  congr 1
  rw [show (0 : ℕ) = 0 % 3 from rfl]
  exact reduceTheAux_eq_spec _ (fun s hs => mem_splitAdv_The_drop l s hs) 0

theorem evasionRaw_eq (l : List Char) :
    evasionRaw l = 100 - (penaltyHalf l : ℚ) / 2 := by
  unfold evasionRaw penaltyHalf
  push_cast
  ring

theorem round2_of_mul_int (q : ℚ) (k : ℤ) (hk : q * 100 = k) :
    round2 q = q := by
  unfold round2 pyRoundEven
  rw [hk]
  have hfl : ((k : ℚ)).floor = k := by
    rw [Rat.floor_def']
    simp [Rat.num_intCast, Rat.den_intCast]
  simp only [hfl]
  have h0 : (k : ℚ) - (k : ℤ) = 0 := sub_self _
  rw [h0]
  norm_num
  field_simp
  linarith [hk]

theorem evasionScore_eq (s : String) :
    evasionScore s = max 0 (100 - (penaltyHalf s.data : ℚ) / 2) := by
  unfold evasionScore
  rw [evasionRaw_eq]
  have hnn : (0 : ℚ) ≤ (penaltyHalf s.data : ℚ) / 2 := by positivity
  rw [min_eq_right (by linarith : (100 : ℚ) - (penaltyHalf s.data : ℚ) / 2 ≤ 100)]
  rcases le_or_lt (100 - (penaltyHalf s.data : ℚ) / 2) 0 with h | h
  · rw [max_eq_left h]
    apply round2_of_mul_int _ 0
    norm_num
  · rw [max_eq_right h.le]
    apply round2_of_mul_int _ (10000 - 50 * (penaltyHalf s.data : ℤ))
    push_cast
    ring

/-- Claim C7, counterexample: the text `"So, Furthermore, So"` contains one
occurrence of `"Furthermore,"`, yet `evaluate_ai_detection_evasion` does not
assign it a strictly lower evasion score than the same text with the
occurrence removed — both score exactly 96, because the removal creates a
`(So|But|Also),\s+(So|But|Also)` "double connector" match whose penalty (-4)
equals the formal-transition penalty that disappears. -/
theorem claim_C7_counterexample :
    countSub (litL "Furthermore,") (litL "So, Furthermore, So") = 1 ∧
    ¬ evasionScore "So, Furthermore, So" <
        evasionScore
          (String.mk (removeAll (litL "Furthermore,") (litL "So, Furthermore, So"))) :=
  ⟨by decide, by decide⟩

/-- Claim C7 (amended): the evaluator's score `100 + Σ penalty·count` clamped
to `[0,100]` is strictly monotone in the expected direction whenever removing
the `"Furthermore,"` occurrences genuinely lowers the penalty load: if the
text with occurrences has strictly more word-boundary formal-transition
matches, at least as many matches of each of the six other patterns, and the
cleaned text's total penalty stays below the clamp (200 half-points), then
the text with occurrences scores strictly lower.  The unrestricted claim is
false (see the counterexample): removing `"Furthermore,"` can create new
matches of other patterns, and the clamp can equalize both scores at 0. -/
theorem claim_C7_amended (u v : String)
    (h1 : patCount matchFormalTransition v.data < patCount matchFormalTransition u.data)
    (h2 : patCount matchImportantNote v.data ≤ patCount matchImportantNote u.data)
    (h3 : patCount matchAiVocab v.data ≤ patCount matchAiVocab u.data)
    (h4 : patCount matchDotThe v.data ≤ patCount matchDotThe u.data)
    (h5 : patCount matchCommaBroken v.data ≤ patCount matchCommaBroken u.data)
    (h6 : patCount matchDoubleConn v.data ≤ patCount matchDoubleConn u.data)
    (h7 : patCount matchNominal v.data ≤ patCount matchNominal u.data)
    (hv : penaltyHalf v.data < 200) :
    evasionScore u < evasionScore v := by
  rw [evasionScore_eq, evasionScore_eq]
  have hH : penaltyHalf v.data + 8 ≤ penaltyHalf u.data := by
    unfold penaltyHalf
    omega
  have hvq : (penaltyHalf v.data : ℚ) < 200 := by exact_mod_cast hv
  have huq : (penaltyHalf v.data : ℚ) + 8 ≤ (penaltyHalf u.data : ℚ) := by
    exact_mod_cast hH
  have hvpos : (0 : ℚ) < 100 - (penaltyHalf v.data : ℚ) / 2 := by linarith
  rw [max_eq_right hvpos.le]
  rcases max_cases (0 : ℚ) (100 - (penaltyHalf u.data : ℚ) / 2) with
    ⟨he, _⟩ | ⟨he, _⟩ <;> rw [he] <;> linarith

/-- Witness for C7 (amended) at a concrete synthetic text: one
`"Furthermore,"` occurrence versus the text with it removed. -/
theorem claim_C7_amended_witness :
    evasionScore "Furthermore, it rains." < evasionScore " it rains." :=
  claim_C7_amended "Furthermore, it rains." " it rains."
    (by decide) (by decide) (by decide) (by decide)
    (by decide) (by decide) (by decide) (by decide)

theorem mem_dropWhile_of_not (q : Char → Bool) (x : Char) :
    ∀ l : List Char, x ∈ l → q x = false → x ∈ l.dropWhile q := by
  intro l
  induction l with
  | nil => intro h _; exact absurd h (List.not_mem_nil x)
  | cons c rest ih =>
    intro hmem hx
    rw [List.dropWhile_cons]
    split
    · next hc =>
      rcases List.mem_cons.mp hmem with rfl | hmem'
      · rw [hx] at hc; cases hc
      · exact ih hmem' hx
    · exact hmem

theorem pyStripWs_any (l : List Char) (h : pyStripWs l ≠ []) :
    l.any (fun c => !isPySpace c) = true := by
  rcases hd : (l.dropWhile isPySpace).reverse.dropWhile isPySpace with
    _ | ⟨c, rest⟩
  · exact absurd (by unfold pyStripWs; rw [hd]; rfl) h
  · have hc : isPySpace c = false :=
      dropWhile_head?_false isPySpace _ c (by rw [hd]; rfl)
    have hmem : c ∈ l := by
      have h1 : c ∈ (l.dropWhile isPySpace).reverse.dropWhile isPySpace := by
        rw [hd]; exact List.mem_cons_self c rest
      have h2 := (List.dropWhile_sublist _).subset h1
      rw [List.mem_reverse] at h2
      exact (List.dropWhile_sublist _).subset h2
    rw [List.any_eq_true]
    exact ⟨c, hmem, by rw [hc]; rfl⟩

theorem pyStripWs_head_not_ws (l : List Char) (c : Char) (rest : List Char)
    (h : pyStripWs l = c :: rest) : isPySpace c = false := by
  obtain ⟨ws, _, hdec⟩ := pyStripWs_decomp l
  rw [h] at hdec
  exact dropWhile_head?_false isPySpace l c (by rw [hdec]; rfl)

theorem filter_map_cons_ne_nil (f : List Char → List Char)
    (x : List Char) (xs : List (List Char))
    (h : ((xs.map f).filter (fun s => !s.isEmpty)) ≠ []) :
    (((x :: xs).map f).filter (fun s => !s.isEmpty)) ≠ [] := by
  rw [List.map_cons, List.filter_cons]
  split
  · exact List.cons_ne_nil _ _
  · exact h

theorem splitSentences_ne_nil :
    ∀ (rest acc : List Char) (prev : List Char),
      (acc.reverse ++ rest).any (fun c => !isPySpace c) = true →
      (((splitSentRaw prev acc rest).map pyStripWs).filter
        (fun s => !s.isEmpty)) ≠ [] := by
  intro rest
  induction rest with
  | nil =>
    intro acc prev hany
    rw [List.append_nil] at hany
    rw [List.any_eq_true] at hany
    obtain ⟨c, hmem, hc⟩ := hany
    have hc' : isPySpace c = false := by
      revert hc; cases isPySpace c <;> simp
    have hne : pyStripWs acc.reverse ≠ [] := by
      intro hnil
      have h1 : c ∈ List.dropWhile isPySpace acc.reverse :=
        mem_dropWhile_of_not isPySpace c acc.reverse hmem hc'
      obtain ⟨ws, hws, hdec⟩ := pyStripWs_decomp acc.reverse
      rw [hnil, List.nil_append] at hdec
      rw [hdec] at h1
      rw [List.all_eq_true] at hws
      have := hws c h1
      rw [hc'] at this
      cases this
    show ((([acc.reverse].map pyStripWs).filter (fun s => !s.isEmpty))) ≠ []
    rw [List.map_cons, List.map_nil, List.filter_cons]
    split
    · exact List.cons_ne_nil _ _
    · next hcond =>
      exact absurd (by simpa using hne) hcond
  | cons c rest' ih =>
    intro acc prev hany
    show ((splitSentRaw prev acc (c :: rest')).map pyStripWs).filter
      (fun s => !s.isEmpty) ≠ []
    rw [show splitSentRaw prev acc (c :: rest') =
      if isPySpace c && sentBoundaryOk prev then
        acc.reverse :: splitSentRaw (c :: prev) [] rest'
      else splitSentRaw (c :: prev) (c :: acc) rest' from rfl]
    split
    · next hcond =>
      rw [Bool.and_eq_true] at hcond
      by_cases hacc : acc.reverse.any (fun x => !isPySpace x) = true
      · obtain ⟨d, hmem, hd⟩ := List.any_eq_true.mp hacc
        have hd' : isPySpace d = false := by
          revert hd; cases isPySpace d <;> simp
        rw [List.map_cons, List.filter_cons]
        split
        · exact List.cons_ne_nil _ _
        · next hno =>
          have hne : pyStripWs acc.reverse ≠ [] := by
            intro hnil
            obtain ⟨ws, hws, hdec⟩ := pyStripWs_decomp acc.reverse
            rw [hnil, List.nil_append] at hdec
            have h1 : d ∈ List.dropWhile isPySpace acc.reverse :=
              mem_dropWhile_of_not isPySpace d acc.reverse hmem hd'
            rw [hdec] at h1
            rw [List.all_eq_true] at hws
            have := hws d h1
            rw [hd'] at this
            cases this
          exact absurd (by simpa using hne) hno
      · have hrest : rest'.any (fun x => !isPySpace x) = true := by
          rw [List.any_append] at hany
          rcases Bool.or_eq_true_iff.mp hany with h | h
          · exact absurd h hacc
          · rw [List.any_cons] at h
            rcases Bool.or_eq_true_iff.mp h with h | h
            · rw [hcond.1] at h
              cases h
            · exact h
        apply filter_map_cons_ne_nil
        exact ih [] (c :: prev) (by simpa using hrest)
    · apply ih (c :: acc) (c :: prev)
      have : (c :: acc).reverse ++ rest' = acc.reverse ++ c :: rest' := by
        rw [List.reverse_cons, List.append_assoc]
        rfl
      rw [this]
      exact hany

theorem analyzeE_ok (l : List Char)
    (h : l.any (fun c => !isPySpace c) = true) :
    ∃ a, analyzeE l = .ok a := by
  have hs : splitSentences l ≠ [] := by
    unfold splitSentences
    exact splitSentences_ne_nil l [] [] (by simpa using h)
  have hlen : (splitSentences l).length ≠ 0 := by
    intro h0
    exact hs (List.length_eq_zero.mp h0)
  rcases he : analyzeE l with e | a
  · exfalso
    simp only [analyzeE] at he
    rw [if_neg hlen] at he
    cases he
  · exact ⟨a, rfl⟩

theorem cleanup_head_not_ws (x : List Char) (c : Char) (rest : List Char)
    (h : intelligentCleanup x = c :: rest) : isPySpace c = false := by
  exact pyStripWs_head_not_ws _ c rest h

theorem calcMetrics_ok (original modified : List Char)
    (ho : original.any (fun c => !isPySpace c) = true)
    (hm : modified = original ∨ ∃ x, modified = intelligentCleanup x) :
    ∃ m, calculateQualityMetrics original modified = .ok m := by
  by_cases hmod : modified.isEmpty = true
  · refine ⟨zeroMetrics, ?_⟩
    unfold calculateQualityMetrics
    rw [if_pos (by rw [hmod, Bool.or_true])]
  · have hmany : modified.any (fun c => !isPySpace c) = true := by
      rcases hm with rfl | ⟨x, hmx⟩
      · exact ho
      · rcases hc : modified with _ | ⟨c, rest⟩
        · rw [hc] at hmod
          exact absurd rfl hmod
        · have hcw : isPySpace c = false := by
            apply cleanup_head_not_ws x c rest
            rw [← hmx]
            exact hc
          simp [List.any_cons, hcw]
    have hoe : original.isEmpty = false := by
      rcases ho' : original with _ | _
      · rw [ho'] at ho
        cases ho
      · rfl
    have hme : modified.isEmpty = false := by
      revert hmod
      cases modified.isEmpty <;> simp
    obtain ⟨a1, h1⟩ := analyzeE_ok original ho
    obtain ⟨a2, h2⟩ := analyzeE_ok modified hmany
    rcases hq : calculateQualityMetrics original modified with e | m
    · exfalso
      unfold calculateQualityMetrics at hq
      rw [if_neg (by rw [hoe, hme]; decide)] at hq
      rw [h1, h2] at hq
      exact Except.noConfusion hq
    · exact ⟨m, rfl⟩

theorem runPipeline_cases (s1 s2 s3 s4 s5 : Step) (h : Bool)
    (text : List Char) (st : SynState) :
    (∃ n, runPipeline s1 s2 s3 s4 s5 h text st = (text, n)) ∨
      ∃ x n, runPipeline s1 s2 s3 s4 s5 h text st =
        (intelligentCleanup x, n) := by
  unfold runPipeline
  rcases he1 : s1 text st with e1 | ⟨t1, st1⟩
  · simp only [he1]
    exact Or.inl ⟨0, rfl⟩
  · simp only [he1]
    cases h
    case true => exact Or.inr ⟨t1, 1, rfl⟩
    case false =>
      rcases he2 : s2 t1 st1 with e2 | ⟨t2, st2⟩
      · simp only [he2]
        exact Or.inl ⟨1, rfl⟩
      · simp only [he2]
        rcases he3 : s3 t2 st2 with e3 | ⟨t3, st3⟩
        · simp only [he3]
          exact Or.inl ⟨2, rfl⟩
        · simp only [he3]
          rcases he4 : s4 t3 st3 with e4 | ⟨t4, st4⟩
          · simp only [he4]
            exact Or.inl ⟨3, rfl⟩
          · simp only [he4]
            rcases he5 : s5 t4 st4 with e5 | ⟨t5, st5⟩
            · simp only [he5]
              exact Or.inl ⟨4, rfl⟩
            · simp only [he5]
              exact Or.inr ⟨t5, 5, rfl⟩

theorem runPipeline_raise_spec (s1 s2 s3 s4 s5 : Step) (h : Bool)
    (text : List Char) (st : SynState)
    (hr : pipelineRaises s1 s2 s3 s4 s5 h text st = true) :
    runPipeline s1 s2 s3 s4 s5 h text st =
      (text, completedCount s1 s2 s3 s4 s5 h text st) ∧
    completedCount s1 s2 s3 s4 s5 h text st ≤ 4 := by
  unfold pipelineRaises at hr
  unfold runPipeline completedCount
  rcases he1 : s1 text st with e1 | ⟨t1, st1⟩
  · simp only [he1]
    exact ⟨by trivial, by decide⟩
  · simp only [he1] at hr ⊢
    by_cases hh : h = true
    · rw [if_pos hh] at hr
      exact absurd hr (by decide)
    · rw [if_neg hh] at hr ⊢
      rw [if_neg hh]
      rcases he2 : s2 t1 st1 with e2 | ⟨t2, st2⟩
      · simp only [he2]
        exact ⟨by trivial, by decide⟩
      · simp only [he2] at hr ⊢
        rcases he3 : s3 t2 st2 with e3 | ⟨t3, st3⟩
        · simp only [he3]
          exact ⟨by trivial, by decide⟩
        · simp only [he3] at hr ⊢
          rcases he4 : s4 t3 st3 with e4 | ⟨t4, st4⟩
          · simp only [he4]
            exact ⟨by trivial, by decide⟩
          · simp only [he4] at hr ⊢
            rcases he5 : s5 t4 st4 with e5 | ⟨t5, st5⟩
            · simp only [he5]
              exact ⟨by trivial, by decide⟩
            · simp only [he5] at hr
              exact absurd hr (by decide)

theorem metrics_of_pipeline (s1 s2 s3c s4 s5 : Step) (h : Bool)
    (text : List Char) (st : SynState)
    (hany : text.any (fun c => !isPySpace c) = true) :
    ∃ m, calculateQualityMetrics text
      (runPipeline s1 s2 s3c s4 s5 h text st).1 = .ok m := by
  rcases runPipeline_cases s1 s2 s3c s4 s5 h text st with ⟨n, hp⟩ | ⟨x, n, hp⟩
  · rw [hp]
    dsimp only
    exact calcMetrics_ok text text hany (Or.inl rfl)
  · rw [hp]
    dsimp only
    exact calcMetrics_ok text (intelligentCleanup x) hany (Or.inr ⟨x, rfl⟩)

theorem humanizeWith_main (s1 s2 : Step)
    (s3 : ModificationConfig → String → Step) (s4 s5 : Step)
    (st : SynState) (text : List Char) (intensity : ℚ) (pf : Bool)
    (a : TextAnalysis) (m : QualityMetrics)
    (hcond : (text.isEmpty || decide ((pyStripWs text).length < 10)) = false)
    (ha : analyzeE text = .ok a)
    (hm : calculateQualityMetrics text
        (runPipeline s1 s2
          (s3 (scaleConfig (getConfigForTone a.target_tone
              a.is_already_human)
            (if a.is_already_human then min (intensity * (15/100)) (1/10)
             else intensity)) a.target_tone)
          s4 s5 a.is_already_human text st).1 = .ok m) :
    humanizeWith s1 s2 s3 s4 s5 st text intensity pf =
      .ok [("original", .str text),
           ("humanized", .str (runPipeline s1 s2
              (s3 (scaleConfig (getConfigForTone a.target_tone
                  a.is_already_human)
                (if a.is_already_human then min (intensity * (15/100)) (1/10)
                 else intensity)) a.target_tone)
              s4 s5 a.is_already_human text st).1),
           ("analysis", .analysisOpt (some a)),
           ("config_used", .config (scaleConfig
              (getConfigForTone a.target_tone a.is_already_human)
              (if a.is_already_human then min (intensity * (15/100)) (1/10)
               else intensity))),
           ("modifications_applied", .num (runPipeline s1 s2
              (s3 (scaleConfig (getConfigForTone a.target_tone
                  a.is_already_human)
                (if a.is_already_human then min (intensity * (15/100)) (1/10)
                 else intensity)) a.target_tone)
              s4 s5 a.is_already_human text st).2),
           ("quality_metrics", .metrics m),
           ("was_already_human", .boolean a.is_already_human)] := by
  unfold humanizeWith
  rw [if_neg (by simp [hcond])]
  simp only [ha, hm]

/-- C8 (counterexample): the claim's no-space-before-punctuation clause
fails.  `_intelligent_cleanup("a - !")` first removes the space before `!`
(pass 2), but the dash pass then rewrites the dash to `", "`, re-creating a
whitespace character immediately before `!`; the output is `"A, !"`. -/
theorem claim_C8_counterexample :
    intelligentCleanup (litL "a - !") = litL "A, !" ∧
    adjPair isSpacePunctPair (intelligentCleanup (litL "a - !")) = true :=
  ⟨by decide, by decide⟩

/-- C8 (amended): for every input, the output of `_intelligent_cleanup`
contains no `",,"` and no `".."` adjacency, and at every sentence boundary
(`.`, `!` or `?` followed by whitespace and then a letter) that letter is
uppercase.  The claim's remaining clause — no whitespace immediately before
`.,!?;:` — is dropped (see the counterexample). -/
theorem claim_C8_amended (l : List Char) :
    adjPair isCommaPair (intelligentCleanup l) = false ∧
    adjPair isDotPair (intelligentCleanup l) = false ∧
    boundariesUpper (intelligentCleanup l) = true :=
  ⟨(cleanup_post l).1, (cleanup_post l).2.1, (cleanup_post l).2.2.1⟩

/-- C9: `preserve_formatting` is never consulted — for every behaviour of
the transformation steps, every text, intensity and engine state, the two
calls return identical results; and the cleanup collapses every whitespace
run (newlines included) to single spaces: every whitespace character of the
output is a plain space and no two are adjacent. -/
theorem claim_C9 :
    (∀ (s1 s2 : Step) (s3 : ModificationConfig → String → Step)
        (s4 s5 : Step) (st : SynState) (text : List Char) (intensity : ℚ),
      humanizeWith s1 s2 s3 s4 s5 st text intensity true =
        humanizeWith s1 s2 s3 s4 s5 st text intensity false) ∧
    (∀ l : List Char, wsSingleSpaced (intelligentCleanup l) = true) :=
  ⟨fun _ _ _ _ _ _ _ _ => rfl, fun l => (cleanup_post l).2.2.2⟩

/-- C3: for every input whose trimmed length is below 10 (the empty string
included), `humanize` returns immediately with the guard dictionary:
humanized equals the input and modifications_applied equals 0 — for every
behaviour of the transformation steps. -/
theorem claim_C3 (s1 s2 : Step) (s3 : ModificationConfig → String → Step)
    (s4 s5 : Step) (st : SynState) (text : List Char) (intensity : ℚ)
    (pf : Bool)
    (hshort : text.isEmpty = true ∨ (pyStripWs text).length < 10) :
    humanizeWith s1 s2 s3 s4 s5 st text intensity pf =
      .ok [("original", .str text), ("humanized", .str text),
           ("analysis", .analysisOpt none),
           ("modifications_applied", .num 0)] := by
  have hcond : (text.isEmpty ||
      decide ((pyStripWs text).length < 10)) = true := by
    rcases hshort with h | h
    · rw [h]
      rfl
    · simp [h]
  unfold humanizeWith
  rw [if_pos hcond]

/-- Witness for C3 at the concrete short input "hi". -/
theorem claim_C3_witness :
    ((litL "hi").isEmpty = true ∨ (pyStripWs (litL "hi")).length < 10) ∧
    humanizeWith idStep idStep idStep3 idStep idStep initState (litL "hi")
        (6/10) true =
      .ok [("original", .str (litL "hi")),
           ("humanized", .str (litL "hi")),
           ("analysis", .analysisOpt none),
           ("modifications_applied", .num 0)] :=
  ⟨Or.inr (by decide),
    claim_C3 idStep idStep idStep3 idStep idStep initState (litL "hi")
      (6/10) true (Or.inr (by decide))⟩

/-- C4 (counterexample): on the short input "hi" the guard returns the
four-key dictionary — the "quality_metrics" and "was_already_human" fields
of the claimed six-field contract are absent. -/
theorem claim_C4_counterexample :
    ((humanizeWith idStep idStep idStep3 idStep idStep initState
        (litL "hi") (6/10) true).toOption.getD []).lookup "original" =
      some (.str (litL "hi")) ∧
    ((humanizeWith idStep idStep idStep3 idStep idStep initState
        (litL "hi") (6/10) true).toOption.getD []).lookup
      "quality_metrics" = none ∧
    ((humanizeWith idStep idStep idStep3 idStep idStep initState
        (litL "hi") (6/10) true).toOption.getD []).lookup
      "was_already_human" = none :=
  ⟨by rfl, by rfl, by rfl⟩

/-- C4 (amended): for every input passing the guard (non-empty, trimmed
length at least 10) and every behaviour of the steps, the result is `.ok`
and all six contract fields are present (the guard path returns only
four). -/
theorem claim_C4_amended (s1 s2 : Step)
    (s3 : ModificationConfig → String → Step) (s4 s5 : Step)
    (st : SynState) (text : List Char) (intensity : ℚ) (pf : Bool)
    (hne : text.isEmpty = false) (hlen : 10 ≤ (pyStripWs text).length) :
    ∃ r, humanizeWith s1 s2 s3 s4 s5 st text intensity pf = .ok r ∧
      (["original", "humanized", "analysis", "modifications_applied",
        "quality_metrics", "was_already_human"].all
          (fun k => (r.lookup k).isSome)) = true := by
  have hcond : (text.isEmpty ||
      decide ((pyStripWs text).length < 10)) = false := by
    rw [hne, decide_eq_false (Nat.not_lt.mpr hlen)]
    rfl
  have hany : text.any (fun c => !isPySpace c) = true := by
    apply pyStripWs_any
    intro h0
    rw [h0] at hlen
    exact absurd hlen (by decide)
  obtain ⟨a, ha⟩ := analyzeE_ok text hany
  obtain ⟨m, hm⟩ := metrics_of_pipeline s1 s2
    (s3 (scaleConfig (getConfigForTone a.target_tone a.is_already_human)
      (if a.is_already_human then min (intensity * (15/100)) (1/10)
       else intensity)) a.target_tone)
    s4 s5 a.is_already_human text st hany
  exact ⟨_, humanizeWith_main s1 s2 s3 s4 s5 st text intensity pf a m
    hcond ha hm, rfl⟩

/-- Witness for C4 (amended) at the concrete input "ccccccccccc". -/
theorem claim_C4_amended_witness :
    (litL "ccccccccccc").isEmpty = false ∧
    10 ≤ (pyStripWs (litL "ccccccccccc")).length ∧
    ∃ r, humanizeWith idStep idStep idStep3 idStep idStep initState
        (litL "ccccccccccc") (6/10) true = .ok r ∧
      (["original", "humanized", "analysis", "modifications_applied",
        "quality_metrics", "was_already_human"].all
          (fun k => (r.lookup k).isSome)) = true :=
  ⟨by decide, by decide,
    claim_C4_amended idStep idStep idStep3 idStep idStep initState
      (litL "ccccccccccc") (6/10) true (by decide) (by decide)⟩

/-- C2: `humanize` never propagates an exception — for every behaviour of
the five transformation steps it returns `.ok`; and whenever some step
raises (for the analysis the pipeline actually uses), the returned
dictionary's "humanized" entry is the unmodified input text. -/
theorem claim_C2 (s1 s2 : Step) (s3 : ModificationConfig → String → Step)
    (s4 s5 : Step) (st : SynState) (text : List Char) (intensity : ℚ)
    (pf : Bool) :
    ∃ r, humanizeWith s1 s2 s3 s4 s5 st text intensity pf = .ok r ∧
      (∀ a : TextAnalysis, analyzeE text = .ok a →
        pipelineRaises s1 s2
          (s3 (scaleConfig (getConfigForTone a.target_tone
              a.is_already_human)
            (if a.is_already_human then min (intensity * (15/100)) (1/10)
             else intensity)) a.target_tone)
          s4 s5 a.is_already_human text st = true →
        r.lookup "humanized" = some (.str text)) := by
  by_cases hguard :
      (text.isEmpty || decide ((pyStripWs text).length < 10)) = true
  · refine ⟨[("original", .str text), ("humanized", .str text),
      ("analysis", .analysisOpt none), ("modifications_applied", .num 0)],
      ?_, ?_⟩
    · unfold humanizeWith
      rw [if_pos hguard]
    · intro a _ _
      rfl
  · have hcond : (text.isEmpty ||
        decide ((pyStripWs text).length < 10)) = false := by
      revert hguard
      cases text.isEmpty || decide ((pyStripWs text).length < 10) <;> simp
    have hlen10 : ¬ (pyStripWs text).length < 10 := by
      rw [Bool.or_eq_false_iff] at hcond
      simpa using hcond.2
    have hany : text.any (fun c => !isPySpace c) = true := by
      apply pyStripWs_any
      intro h0
      rw [h0] at hlen10
      exact hlen10 (by decide)
    have hcond2 : (text.isEmpty ||
        decide ((pyStripWs text).length < 10)) = false := by
      revert hguard
      cases text.isEmpty || decide ((pyStripWs text).length < 10) <;> simp
    obtain ⟨a, ha⟩ := analyzeE_ok text hany
    obtain ⟨m, hm⟩ := metrics_of_pipeline s1 s2
      (s3 (scaleConfig (getConfigForTone a.target_tone a.is_already_human)
        (if a.is_already_human then min (intensity * (15/100)) (1/10)
         else intensity)) a.target_tone)
      s4 s5 a.is_already_human text st hany
    refine ⟨_, humanizeWith_main s1 s2 s3 s4 s5 st text intensity pf a m
      hcond2 ha hm, ?_⟩
    intro a2 ha2 hr
    rw [ha] at ha2
    injection ha2 with haa
    subst haa
    have hp := (runPipeline_raise_spec s1 s2
      (s3 (scaleConfig (getConfigForTone a.target_tone a.is_already_human)
        (if a.is_already_human then min (intensity * (15/100)) (1/10)
         else intensity)) a.target_tone)
      s4 s5 a.is_already_human text st hr).1
    rw [hp]
    rfl

/-- Witness for C2 at a raising first step and the concrete input
"aaaaaaaaaaa": the result is still `.ok` and "humanized" is the input. -/
theorem claim_C2_witness :
    ∃ r, humanizeWith failStep idStep idStep3 idStep idStep initState
        (litL "aaaaaaaaaaa") (6/10) true = .ok r ∧
      r.lookup "humanized" = some (.str (litL "aaaaaaaaaaa")) := by
  obtain ⟨r, h1, h2⟩ := claim_C2 failStep idStep idStep3 idStep idStep
    initState (litL "aaaaaaaaaaa") (6/10) true
  obtain ⟨a, ha⟩ := analyzeE_ok (litL "aaaaaaaaaaa") (by decide)
  exact ⟨r, h1, h2 a ha rfl⟩

/-- C10 (counterexample): when step 1 raises on an input passing the guard,
`modifications_applied` is 0 — outside the claim's stated range 1..5 ("the
number of pipeline stages entered", which would be 1 here). -/
theorem claim_C10_counterexample :
    ((humanizeWith failStep idStep idStep3 idStep idStep initState
        (litL "bbbbbbbbbbb") (6/10) true).toOption.getD []).lookup
      "modifications_applied" = some (.num 0) ∧
    ((humanizeWith failStep idStep idStep3 idStep idStep initState
        (litL "bbbbbbbbbbb") (6/10) true).toOption.getD []).lookup
      "humanized" = some (.str (litL "bbbbbbbbbbb")) :=
  ⟨by rfl, by rfl⟩

/-- C10 (amended): when a step raises (guard passed), the result is `.ok`
with "humanized" rolled back to the input while "modifications_applied" is
not reset: it equals the number of *completed* steps before the raising
one, which lies between 0 and 4 (0 when step 1 raises) — not the claim's
1..5. -/
theorem claim_C10_amended (s1 s2 : Step)
    (s3 : ModificationConfig → String → Step) (s4 s5 : Step)
    (st : SynState) (text : List Char) (intensity : ℚ) (pf : Bool)
    (a : TextAnalysis)
    (hne : text.isEmpty = false) (hlen : 10 ≤ (pyStripWs text).length)
    (ha : analyzeE text = .ok a)
    (hr : pipelineRaises s1 s2
        (s3 (scaleConfig (getConfigForTone a.target_tone a.is_already_human)
          (if a.is_already_human then min (intensity * (15/100)) (1/10)
           else intensity)) a.target_tone)
        s4 s5 a.is_already_human text st = true) :
    ∃ r, humanizeWith s1 s2 s3 s4 s5 st text intensity pf = .ok r ∧
      r.lookup "humanized" = some (.str text) ∧
      r.lookup "modifications_applied" =
        some (.num (completedCount s1 s2
          (s3 (scaleConfig (getConfigForTone a.target_tone
              a.is_already_human)
            (if a.is_already_human then min (intensity * (15/100)) (1/10)
             else intensity)) a.target_tone)
          s4 s5 a.is_already_human text st)) ∧
      completedCount s1 s2
        (s3 (scaleConfig (getConfigForTone a.target_tone a.is_already_human)
          (if a.is_already_human then min (intensity * (15/100)) (1/10)
           else intensity)) a.target_tone)
        s4 s5 a.is_already_human text st ≤ 4 := by
  have hcond : (text.isEmpty ||
      decide ((pyStripWs text).length < 10)) = false := by
    rw [hne, decide_eq_false (Nat.not_lt.mpr hlen)]
    rfl
  have hany : text.any (fun c => !isPySpace c) = true := by
    apply pyStripWs_any
    intro h0
    rw [h0] at hlen
    exact absurd hlen (by decide)
  obtain ⟨m, hm⟩ := metrics_of_pipeline s1 s2
    (s3 (scaleConfig (getConfigForTone a.target_tone a.is_already_human)
      (if a.is_already_human then min (intensity * (15/100)) (1/10)
       else intensity)) a.target_tone)
    s4 s5 a.is_already_human text st hany
  obtain ⟨hp, hle⟩ := runPipeline_raise_spec s1 s2
    (s3 (scaleConfig (getConfigForTone a.target_tone a.is_already_human)
      (if a.is_already_human then min (intensity * (15/100)) (1/10)
       else intensity)) a.target_tone)
    s4 s5 a.is_already_human text st hr
  refine ⟨_, humanizeWith_main s1 s2 s3 s4 s5 st text intensity pf a m
    hcond ha hm, ?_, ?_, hle⟩
  · rw [hp]
    rfl
  · rw [hp]
    rfl

/-- Witness for C10 (amended) at a raising first step on the concrete input
"ddddddddddd" (whose analysis record is computed by `decide`): the count is
`completedCount`, here 0. -/
theorem claim_C10_amended_witness :
    ∃ r, humanizeWith failStep idStep idStep3 idStep idStep initState
        (litL "ddddddddddd") (6/10) true = .ok r ∧
      r.lookup "humanized" = some (.str (litL "ddddddddddd")) ∧
      r.lookup "modifications_applied" =
        some (.num (completedCount failStep idStep
          (idStep3 (scaleConfig (getConfigForTone "casual" false)
            (6/10)) "casual")
          idStep idStep false (litL "ddddddddddd") initState)) ∧
      completedCount failStep idStep
        (idStep3 (scaleConfig (getConfigForTone "casual" false)
          (6/10)) "casual")
        idStep idStep false (litL "ddddddddddd") initState ≤ 4 :=
  claim_C10_amended failStep idStep idStep3 idStep idStep initState
    (litL "ddddddddddd") (6/10) true
    ⟨0, 0, 1, 0, "casual", 1, 1, 1, 1, false, 0⟩
    (by decide) (by decide) (by decide) (by decide)

end Theorems

end Clearify
